import Mathlib

/-!
Verification development for the `css-to-vars` tool (`src/index.ts`).

The tool scans stylesheet text line by line, extracts literal values
(hex/functional/named colors, spacing lengths, font families), aggregates
them across files keyed by normalized value, filters by a minimum
occurrence count, generates `--{prefix}-…` variable names, and rewrites
files replacing literals with `var(name)` wrappers plus an injected
`:root` declaration block.

Strings are modelled as `List Char` (`Str`). Regex-based extraction is
modelled by explicit scanners that follow the JavaScript regex semantics
of the concrete patterns in the source; where a pattern admits
backtracking, the scanner implements the observable result of that
backtracking (noted at each definition). All definitions are structurally
recursive so that concrete runs evaluate by `decide`/`rfl`.
-/

set_option autoImplicit false

namespace CssToVars

abbrev Str := List Char

/-- ASCII lowercasing, as applied by `toLowerCase` to the ASCII-only
values (hex digits, named colors, font names) the tool lowercases. -/
def lowerChar (c : Char) : Char :=
  if c.isUpper then Char.ofNat (c.toNat + 32) else c

def isDigitC (c : Char) : Bool := c.isDigit

def isHexDigitC (c : Char) : Bool :=
  c.isDigit || ('a' ≤ c && c ≤ 'f') || ('A' ≤ c && c ≤ 'F')

/-- Regex `\w`: `[A-Za-z0-9_]`. -/
def isWordChar (c : Char) : Bool := c.isAlphanum || c = '_'

def isAlphanumC (c : Char) : Bool := c.isAlphanum

/-- Regex `\s` restricted to ASCII whitespace. -/
def isWSChar (c : Char) : Bool :=
  c = ' ' || c = '\t' || c = '\n' || c = '\r' || c = '\x0b' || c = '\x0c'

/-- Word-boundary test for the position just before this suffix, when the
preceding character is a word character: `\b` holds there iff the suffix
is empty or starts with a non-word character. -/
def nonWordHead : Str → Bool
  | [] => true
  | c :: _ => !isWordChar c

/-- `JavaScript`'s `String.prototype.trim` (start side). -/
def trimL (l : Str) : Str := l.dropWhile isWSChar

/-- `JavaScript`'s `String.prototype.trim`. -/
def trimStr (l : Str) : Str :=
  ((l.dropWhile isWSChar).reverse.dropWhile isWSChar).reverse

/-- Substring test (`String.prototype.includes` / regex literal test). -/
def hasSub (pat : Str) : Str → Bool
  | [] => decide (pat = [])
  | c :: rest => pat.isPrefixOf (c :: rest) || hasSub pat rest

/- ── Hex colors: `#(?:[0-9a-fA-F]{3,8})\b` ──
A match at a `#` takes the maximal run of hex digits after it.  The
trailing `\b` sits after a hex digit (a word character), so it holds iff
the next character is a non-word character or the end.  Backtracking to a
shorter digit count never succeeds, because the following character would
then be a hex digit, i.e. a word character; hence a `#` matches iff the
maximal run has length 3..8 and ends at a word boundary. -/

/-- Single hex-color match attempt at the head of the string. -/
def hexHere : Str → Option Str
  | [] => none
  | c :: rest =>
    if c = '#' then
      let ds := rest.takeWhile isHexDigitC
      if 3 ≤ ds.length && ds.length ≤ 8 && nonWordHead (rest.drop ds.length) then
        some ('#' :: ds)
      else
        none
    else none

/-- Global scan for hex-color matches.  The first argument is the number
of characters still to skip (the regex engine's `lastIndex` advancing
past a match). -/
def scanHexGo : Nat → Str → List Str
  | _, [] => []
  | n + 1, _ :: rest => scanHexGo n rest
  | 0, c :: rest =>
    match hexHere (c :: rest) with
    | some v => v :: scanHexGo (v.length - 1) rest
    | none => scanHexGo 0 rest

/-- All hex-color values of a line, lowercased (`match[0].toLowerCase()`). -/
def extractHexLine (l : Str) : List Str :=
  (scanHexGo 0 l).map (List.map lowerChar)

example : extractHexLine "color: #FF0000;".data = ["#ff0000".data] := by decide
example : extractHexLine "color: #abcde;".data = ["#abcde".data] := by decide
example : extractHexLine "color: #123456789;".data = [] := by decide
example : extractHexLine "color: #ab;".data = [] := by decide
example : extractHexLine "x: #aabbccdd #fff;".data
    = ["#aabbccdd".data, "#fff".data] := by decide
example : extractHexLine "color: #abcdefg;".data = [] := by decide

/- ── Parser helpers for the functional-color patterns ── -/

/-- Consume an exact literal at the head. -/
def dropLit (p : Str) (l : Str) : Option Str :=
  if p.isPrefixOf l then some (l.drop p.length) else none

/-- Regex `\s*` (greedy; a shorter match never rescues the patterns below,
since each is followed by a token no whitespace character satisfies). -/
def skipWS (l : Str) : Str := l.dropWhile isWSChar

/-- Regex `\d+` (maximal; following tokens in the color patterns — `,`,
`)`, `%`, whitespace — are not digits, so backtracking never applies). -/
def digits1 (l : Str) : Option Str :=
  let d := l.takeWhile isDigitC
  if d.isEmpty then none else some (l.drop d.length)

/-- Regex `[\d.]+` (maximal, same backtracking remark). -/
def digitsDots1 (l : Str) : Option Str :=
  let d := l.takeWhile (fun c => isDigitC c || c == '.')
  if d.isEmpty then none else some (l.drop d.length)

/-- Regex `[\d.]+%`. -/
def pctTail (l : Str) : Option Str := do
  let r ← digitsDots1 l
  dropLit ['%'] r

/-- `COLOR_RGB` after `rgb(`/`rgba(`:
`\s*\d+\s*,\s*\d+\s*,\s*\d+\s*(?:,\s*[\d.]+\s*)?\)`.  The optional alpha
group is tried first; if it fails (or `)` after it fails) the engine
falls back to matching `)` directly. -/
def rgbTail (l : Str) : Option Str := do
  let r ← digits1 (skipWS l)
  let r ← dropLit [','] (skipWS r)
  let r ← digits1 (skipWS r)
  let r ← dropLit [','] (skipWS r)
  let r ← digits1 (skipWS r)
  let r := skipWS r
  match (do
      let a ← dropLit [','] r
      let a ← digitsDots1 (skipWS a)
      dropLit [')'] (skipWS a)) with
  | some rest => some rest
  | none => dropLit [')'] r

/-- Single `rgba?(...)` match attempt at the head; returns the matched
text and the remaining suffix. -/
def rgbHere (l : Str) : Option (Str × Str) :=
  match (if ("rgba(".data).isPrefixOf l then some (l.drop 5)
         else if ("rgb(".data).isPrefixOf l then some (l.drop 4)
         else none) with
  | none => none
  | some afterParen =>
    match rgbTail afterParen with
    | none => none
    | some rest => some (l.take (l.length - rest.length), rest)

/-- `COLOR_HSL` after `hsl(`/`hsla(`:
`\s*\d+\s*,\s*[\d.]+%\s*,\s*[\d.]+%\s*(?:,\s*[\d.]+\s*)?\)`. -/
def hslTail (l : Str) : Option Str := do
  let r ← digits1 (skipWS l)
  let r ← dropLit [','] (skipWS r)
  let r ← pctTail (skipWS r)
  let r ← dropLit [','] (skipWS r)
  let r ← pctTail (skipWS r)
  let r := skipWS r
  match (do
      let a ← dropLit [','] r
      let a ← digitsDots1 (skipWS a)
      dropLit [')'] (skipWS a)) with
  | some rest => some rest
  | none => dropLit [')'] r

/-- Single `hsla?(...)` match attempt at the head. -/
def hslHere (l : Str) : Option (Str × Str) :=
  match (if ("hsla(".data).isPrefixOf l then some (l.drop 5)
         else if ("hsl(".data).isPrefixOf l then some (l.drop 4)
         else none) with
  | none => none
  | some afterParen =>
    match hslTail afterParen with
    | none => none
    | some rest => some (l.take (l.length - rest.length), rest)

/-- Global scan driven by a head-match function (regex `g` flag:
`lastIndex` advances past each match, one character on failure). -/
def scanFnGo (f : Str → Option (Str × Str)) : Nat → Str → List Str
  | _, [] => []
  | n + 1, _ :: rest => scanFnGo f n rest
  | 0, c :: rest =>
    match f (c :: rest) with
    | some (v, _) => v :: scanFnGo f (v.length - 1) rest
    | none => scanFnGo f 0 rest

/-- `value.replace(/\s+/g, " ")`: collapse whitespace runs to one space.
The `Bool` records being inside a whitespace run. -/
def collapseWSGo : Bool → Str → Str
  | _, [] => []
  | inRun, c :: rest =>
    if isWSChar c then
      (if inRun then collapseWSGo true rest else ' ' :: collapseWSGo true rest)
    else c :: collapseWSGo false rest

def collapseWS (l : Str) : Str := collapseWSGo false l

/-- All `rgb()`/`rgba()` values of a line, whitespace-collapsed. -/
def extractRgbLine (l : Str) : List Str := (scanFnGo rgbHere 0 l).map collapseWS

/-- All `hsl()`/`hsla()` values of a line, whitespace-collapsed. -/
def extractHslLine (l : Str) : List Str := (scanFnGo hslHere 0 l).map collapseWS

example : extractRgbLine "x: rgb(255, 0,   0);".data = ["rgb(255, 0, 0)".data] := by decide
example : extractRgbLine "x: rgba( 1,2,3, 0.5 );".data = [collapseWS "rgba( 1,2,3, 0.5 )".data] := by decide
example : extractRgbLine "x: rgb(1,2);".data = [] := by decide
example : extractHslLine "x: hsl(120, 50%, 50%);".data = ["hsl(120, 50%, 50%)".data] := by decide
example : extractHslLine "x: hsl(120, 50, 50);".data = [] := by decide

/- ── Named colors: `COLOR_NAMED`, flags `gi`, word-bounded ── -/

/-- The fixed closed set, in the alternation order of the source regex. -/
def namedColors : List Str :=
  ["red", "blue", "green", "orange", "purple", "pink", "brown", "gray",
   "grey", "black", "white", "yellow", "cyan", "magenta", "navy", "teal",
   "olive", "maroon", "aqua", "lime", "silver", "fuchsia"].map String.data

/-- Case-insensitive prefix test against a lowercase pattern. -/
def ciStarts : Str → Str → Bool
  | [], _ => true
  | _ :: _, [] => false
  | p :: ps, c :: cs => (lowerChar c == p) && ciStarts ps cs

/-- `\b` before a match that starts with a word character: the previous
character (if any) must not be a word character.  Identical to the
lookbehind `(?<!\w)` of the spacing pattern. -/
def wordBoundaryBefore : Option Char → Bool
  | none => true
  | some c => !isWordChar c

/-- First named color (alternation order) matching case-insensitively at
the head with a trailing word boundary.  No name is a prefix of another,
so at most one alternative can match at a given position. -/
def namedHere (l : Str) : Option Str :=
  namedColors.find? (fun nm => ciStarts nm l && nonWordHead (l.drop nm.length))

/-- Global scan for named colors; the `Option Char` is the previous
character (for the leading `\b`). -/
def scanNamedGo : Nat → Option Char → Str → List Str
  | _, _, [] => []
  | n + 1, _, c :: rest => scanNamedGo n (some c) rest
  | 0, prev, c :: rest =>
    if wordBoundaryBefore prev then
      match namedHere (c :: rest) with
      | some nm => nm :: scanNamedGo (nm.length - 1) (some c) rest
      | none => scanNamedGo 0 (some c) rest
    else scanNamedGo 0 (some c) rest

/-- All named-color values of a line (already lowercase: the source
lowercases the matched text, and a case-insensitive match of a lowercase
name lowercases back to that name). -/
def extractNamedLine (l : Str) : List Str := scanNamedGo 0 none l

example : extractNamedLine "border: 1px solid Red;".data = ["red".data] := by decide
example : extractNamedLine "background: whitesmoke;".data = [] := by decide
example : extractNamedLine "x: grey white".data = ["grey".data, "white".data] := by decide

/- ── Spacing: `SPACING = (?<!\w)(\d+(?:\.\d+)?)(px|rem|em|vh|vw|%)\b` ── -/

/-- The unit alternation, in source order.  No unit is a prefix of
another, so at most one alternative matches at a given position. -/
def spacingUnits : List Str := ["px", "rem", "em", "vh", "vw", "%"].map String.data

/-- Single spacing match attempt at the head (the lookbehind is checked
by the caller).  Returns `(number text, unit)`.

The digit run and the optional `.digits` fraction are maximal: a shorter
run would put a digit where the unit must start, and no unit starts with
a digit or a dot, so backtracking into group 1 never succeeds.  The
trailing `\b` after `px|rem|em|vh|vw` (ending in a word character) needs
a non-word successor or the end; after `%` (a non-word character) it
needs a word successor. -/
def unitBoundary (u after : Str) : Bool :=
  if u == ['%'] then (match after with | c :: _ => isWordChar c | [] => false)
  else nonWordHead after

def spacingHere (l : Str) : Option (Str × Str) :=
  let ds := l.takeWhile isDigitC
  if ds.isEmpty then none else
  let frac : Str :=
    match l.drop ds.length with
    | '.' :: r2 =>
      let fs := r2.takeWhile isDigitC
      if fs.isEmpty then [] else '.' :: fs
    | _ => []
  let rest2 := l.drop (ds.length + frac.length)
  match spacingUnits.find? (fun u => u.isPrefixOf rest2) with
  | none => none
  | some u =>
    if unitBoundary u (rest2.drop u.length) then some (ds ++ frac, u) else none

/-- Global scan for spacing matches; the `Option Char` is the previous
character (for `(?<!\w)`). -/
def scanSpacingGo : Nat → Option Char → Str → List (Str × Str)
  | _, _, [] => []
  | n + 1, _, c :: rest => scanSpacingGo n (some c) rest
  | 0, prev, c :: rest =>
    if wordBoundaryBefore prev then
      match spacingHere (c :: rest) with
      | some (num, u) => (num, u) :: scanSpacingGo (num.length + u.length - 1) (some c) rest
      | none => scanSpacingGo 0 (some c) rest
    else scanSpacingGo 0 (some c) rest

/-- Decimal value of a digit run (`parseFloat` on the integer part,
modelled exactly). -/
def digitsToNat (l : Str) : Nat := l.foldl (fun a c => 10 * a + (c.toNat - '0'.toNat)) 0

/-- `parseFloat(num) == n` for a captured `\d+(\.\d+)?` text and an
integer `n`, modelled with exact (unrounded) decimal semantics. -/
def numEq (num : Str) (n : Nat) : Bool :=
  let ds := num.takeWhile isDigitC
  digitsToNat ds == n && (num.drop ds.length).all (fun c => c == '.' || c == '0')

/-- The source's skip conditions on a spacing match:
`num === 0 || (unit === "%" && (num === 100 || num === 50))` and
`unit === "px" && num === 1`. -/
def spacingExcluded (num u : Str) : Bool :=
  numEq num 0 || (u == ['%'] && (numEq num 100 || numEq num 50)) ||
    (u == "px".data && numEq num 1)

/-- Spacing values of a line surviving the exclusions (the property gate
is applied by the per-line classifier). -/
def extractSpacingLine (l : Str) : List Str :=
  (scanSpacingGo 0 none l).filterMap
    (fun m => if spacingExcluded m.1 m.2 then none else some (m.1 ++ m.2))

example : extractSpacingLine "margin: 16px 1.5rem;".data = ["16px".data, "1.5rem".data] := by decide
example : extractSpacingLine "padding: 0px 1px 100% 50%;".data = [] := by decide
example : extractSpacingLine "margin: 1.0px 0.0em;".data = [] := by decide
example : extractSpacingLine "width: x16px;".data = [] := by decide
example : extractSpacingLine "width: 33%;".data = [] := by decide
example : extractSpacingLine "width: 33%x;".data = ["33%".data] := by decide

/- ── Font family: `FONT_FAMILY = /font-family\s*:\s*([^;]+)/g` ── -/

/-- Single `font-family` match attempt at the head; returns the captured
segment (with its leading whitespace, which trimming removes anyway) and
the total matched length.  `\s*` then `([^;]+)` together consume the
maximal `;`-free run after the colon, which must be nonempty. -/
def fontHere (l : Str) : Option (Str × Nat) :=
  match dropLit "font-family".data l with
  | none => none
  | some r1 =>
    match skipWS r1 with
    | ':' :: r3 =>
      let seg := r3.takeWhile (fun c => c != ';')
      if seg.isEmpty then none
      else some (seg, l.length - (r3.length - seg.length))
    | _ => none

/-- Global scan for `font-family` declarations, values trimmed. -/
def scanFontGo : Nat → Str → List Str
  | _, [] => []
  | n + 1, _ :: rest => scanFontGo n rest
  | 0, c :: rest =>
    match fontHere (c :: rest) with
    | some (seg, len) => trimStr seg :: scanFontGo (len - 1) rest
    | none => scanFontGo 0 rest

/-- Font values of a line: trimmed captures longer than 2 characters. -/
def extractFontLine (l : Str) : List Str :=
  (scanFontGo 0 l).filter (fun v => 2 < v.length)

example : extractFontLine "font-family: Arial, sans-serif;".data
    = ["Arial, sans-serif".data] := by decide
example : extractFontLine "  font-family :  \x22My Font\x22 ;".data
    = ["\x22My Font\x22".data] := by decide
example : extractFontLine "font-family: a;".data = [] := by decide

/- ── Per-line classifier (`extractValues` body) ── -/

inductive Scope | colors | spacing | all
deriving DecidableEq, Repr, Inhabited

inductive VType | color | spacing | font
deriving DecidableEq, Repr, Inhabited

/-- One classified value on a line: `(normalized value, category,
property name)`. -/
structure Triple where
  value : Str
  ty : VType
  prop : Str
deriving DecidableEq, Repr, Inhabited

/-- The skip rules at the top of the extraction loop: trimmed line starts
with `--`, `/*`, `*` or `//`, or the line contains `var(`. -/
def skipLine (l : Str) : Bool :=
  ("--".data).isPrefixOf (trimStr l) || ("/*".data).isPrefixOf (trimStr l) ||
    (['*']).isPrefixOf (trimStr l) || ("//".data).isPrefixOf (trimStr l) ||
    hasSub "var(".data l

/-- The property of a line, per `/^\s*([\w-]+)\s*:/`, defaulting to
`unknown`. -/
def propertyOf (l : Str) : Str :=
  let rest := l.dropWhile isWSChar
  let p := rest.takeWhile (fun c => isWordChar c || c == '-')
  match (rest.drop p.length).dropWhile isWSChar with
  | ':' :: _ => if p.isEmpty then "unknown".data else p
  | _ => "unknown".data

/-- `/color|background|border|shadow|outline/i` and the box/layout
pattern, as case-insensitive substring tests. -/
def propMatches (pats : List Str) (p : Str) : Bool :=
  pats.any (fun pat => hasSub pat (p.map lowerChar))

def colorProps : List Str :=
  ["color", "background", "border", "shadow", "outline"].map String.data

def boxProps : List Str :=
  ["margin", "padding", "gap", "width", "height", "top", "left", "right",
   "bottom", "border-radius", "font-size"].map String.data

/-- All classified values of one line, in source order: hex, rgb, hsl,
named (colors scope), spacing (spacing scope), font (scope `all` only). -/
def lineTriples (scope : Scope) (l : Str) : List Triple :=
  if skipLine l then [] else
  let p := propertyOf l
  (if scope = Scope.colors ∨ scope = Scope.all then
     (extractHexLine l).map (fun v => ⟨v, VType.color, p⟩)
       ++ (extractRgbLine l).map (fun v => ⟨v, VType.color, p⟩)
       ++ (extractHslLine l).map (fun v => ⟨v, VType.color, p⟩)
       ++ (if propMatches colorProps p then
             (extractNamedLine l).map (fun v => ⟨v, VType.color, p⟩)
           else [])
   else [])
  ++ (if scope = Scope.spacing ∨ scope = Scope.all then
        (if propMatches boxProps p then
           (extractSpacingLine l).map (fun v => ⟨v, VType.spacing, p⟩)
         else [])
      else [])
  ++ (if scope = Scope.all then
        (extractFontLine l).map (fun v => ⟨v, VType.font, p⟩)
      else [])

example : lineTriples Scope.all "  color: #FF0000;".data
    = [⟨"#ff0000".data, VType.color, "color".data⟩] := by decide
example : lineTriples Scope.all "background: var(--existing);".data = [] := by decide
example : lineTriples Scope.all "  --cv-color-1: #fff;".data = [] := by decide
example : lineTriples Scope.all "  margin: 16px;".data
    = [⟨"16px".data, VType.spacing, "margin".data⟩] := by decide
example : lineTriples Scope.colors "font-family: Arial, sans-serif;".data = [] := by decide
example : lineTriples Scope.all "gap: 16px".data
    = [⟨"16px".data, VType.spacing, "gap".data⟩] := by decide

/- ── Aggregator (`addValue`, per-file extraction, cross-file merge) ── -/

/-- One occurrence site `{ file, line, property }` (line is 1-based). -/
structure Loc where
  file : Str
  line : Nat
  prop : Str
deriving DecidableEq, Repr, Inhabited

/-- `ExtractedValue { value, type, locations }`. -/
structure ExtractedValue where
  value : Str
  ty : VType
  locations : List Loc
deriving DecidableEq, Repr, Inhabited

/-- The `Map<string, ExtractedValue>` as an insertion-ordered
association list (JavaScript `Map` iterates in insertion order, and
`set` on an existing key keeps its position). -/
abbrev VMap := List (Str × ExtractedValue)

/-- `addValue`: push a location onto an existing entry (keeping its
category) or append a fresh entry at the end. -/
def addValue (m : VMap) (value : Str) (ty : VType) (loc : Loc) : VMap :=
  match m with
  | [] => [(value, ⟨value, ty, [loc]⟩)]
  | (k, e) :: rest =>
    if k = value then (k, { e with locations := e.locations ++ [loc] }) :: rest
    else (k, e) :: addValue rest value ty loc

/-- `content.split("\n")`. -/
def splitNl : Str → List Str
  | [] => [[]]
  | c :: rest =>
    if c = '\n' then [] :: splitNl rest
    else
      match splitNl rest with
      | [] => [[c]]
      | p :: ps => (c :: p) :: ps

/-- All `addValue` calls of one line, folded into the map. -/
def addLineTriples (m : VMap) (file : Str) (lineNum : Nat) (ts : List Triple) : VMap :=
  ts.foldl (fun acc t => addValue acc t.value t.ty ⟨file, lineNum, t.prop⟩) m

/-- The line loop of `extractValues` (0-based loop index, 1-based
recorded line numbers). -/
def extractGo (file : Str) (scope : Scope) : VMap → Nat → List Str → VMap
  | m, _, [] => m
  | m, i, l :: ls =>
    extractGo file scope (addLineTriples m file (i + 1) (lineTriples scope l)) (i + 1) ls

/-- `extractValues(content, filePath, scope)`. -/
def extractValuesFile (content file : Str) (scope : Scope) : VMap :=
  extractGo file scope [] 0 (splitNl content)

/-- One step of the cross-file merge in `main`: push the locations of a
per-file entry onto the global entry (keeping the global category), or
append a copy at the end. -/
def mergeOne : VMap → Str × ExtractedValue → VMap
  | [], kv => [kv]
  | (k, e) :: rest, kv =>
    if k = kv.1 then (k, { e with locations := e.locations ++ kv.2.locations }) :: rest
    else (k, e) :: mergeOne rest kv

/-- The cross-file merge loop. -/
def mergeInto (allV m : VMap) : VMap := m.foldl mergeOne allV

/-- `allValues` built over all files in discovery order. -/
def aggregateAll (files : List (Str × Str)) (scope : Scope) : VMap :=
  files.foldl (fun acc f => mergeInto acc (extractValuesFile f.2 f.1 scope)) []

/- ── Selector ── -/

/-- The min-occurrence filter of `main`. -/
def selectMin (minOcc : Nat) (m : VMap) : VMap :=
  m.filter (fun kv => minOcc ≤ kv.2.locations.length)

/- ── Namer (`generateVarName` and the counter loop of `main`) ── -/

/-- `${index + 1}` rendered in decimal. -/
def natDigits (n : Nat) : Str := Nat.toDigits 10 n

/-- `value.replace(/[^a-zA-Z0-9]/g, "-")`. -/
def sanitizeSpacing (v : Str) : Str :=
  v.map (fun c => if isAlphanumC c then c else '-')

/-- Whitespace runs replaced by a single hyphen (`replace(/\s+/g, "-")`). -/
def hyphenWSGo : Bool → Str → Str
  | _, [] => []
  | inRun, c :: rest =>
    if isWSChar c then
      (if inRun then hyphenWSGo true rest else '-' :: hyphenWSGo true rest)
    else c :: hyphenWSGo false rest

/-- Font-name cleaning: strip `"` and `'`, first comma segment, trim,
lowercase, whitespace runs to hyphens. -/
def fontNameClean (v : Str) : Str :=
  let noQuotes := v.filter (fun c => c != '\x22' && c != '\x27')
  let first := noQuotes.takeWhile (fun c => c != ',')
  hyphenWSGo false ((trimStr first).map lowerChar)

/-- `generateVarName(prefix, type, value, index)`.  (`pre` is the
configured prefix string.) -/
def generateVarName (pre : Str) (ty : VType) (value : Str) (index : Nat) : Str :=
  match ty with
  | VType.color =>
    let hex := value.map lowerChar
    if hex = "#fff".data ∨ hex = "#ffffff".data then "--".data ++ pre ++ "-color-white".data
    else if hex = "#000".data ∨ hex = "#000000".data then "--".data ++ pre ++ "-color-black".data
    else "--".data ++ pre ++ "-color-".data ++ natDigits (index + 1)
  | VType.spacing => "--".data ++ pre ++ "-spacing-".data ++ sanitizeSpacing value
  | VType.font => "--".data ++ pre ++ "-font-".data ++ fontNameClean value

/-- The per-category counters (`{ color: 0, spacing: 0, font: 0 }`). -/
structure Counters where
  color : Nat
  spacing : Nat
  font : Nat
deriving DecidableEq, Repr, Inhabited

def getC (cs : Counters) : VType → Nat
  | VType.color => cs.color
  | VType.spacing => cs.spacing
  | VType.font => cs.font

def bumpC (cs : Counters) : VType → Counters
  | VType.color => { cs with color := cs.color + 1 }
  | VType.spacing => { cs with spacing := cs.spacing + 1 }
  | VType.font => { cs with font := cs.font + 1 }

/-- The naming loop of `main`: `const idx = counters[info.type]++` —
the counter is consumed and incremented for every entry of its category,
including `#fff`/`#000` special cases. -/
def nameGo (pre : Str) : Counters → List (Str × VType) → List (Str × Str)
  | _, [] => []
  | cs, (v, ty) :: rest =>
    (v, generateVarName pre ty v (getC cs ty)) :: nameGo pre (bumpC cs ty) rest

/-- `varMap` (value → name) over the selected entries in order. -/
def nameAll (pre : Str) (entries : List (Str × VType)) : List (Str × Str) :=
  nameGo pre ⟨0, 0, 0⟩ entries

example : nameAll "cv".data
    [("#ffffff".data, VType.color), ("#ff0000".data, VType.color)]
    = [("#ffffff".data, "--cv-color-white".data),
       ("#ff0000".data, "--cv-color-2".data)] := by decide

/- ── Block Generator (`generateRootBlock`) ── -/

def joinNl (ls : List Str) : Str := List.intercalate ['\n'] ls

/-- `generateRootBlock(variables, prefix)`: chained `includes` grouping
(color, else spacing, else font), labeled sections for non-empty groups. -/
def generateRootBlock (vars : List (Str × Str)) (pre : Str) : Str :=
  let tagC := ['-'] ++ pre ++ "-color".data
  let tagS := ['-'] ++ pre ++ "-spacing".data
  let tagF := ['-'] ++ pre ++ "-font".data
  let gC := vars.filter (fun kv => hasSub tagC kv.1)
  let gS := vars.filter (fun kv => !hasSub tagC kv.1 && hasSub tagS kv.1)
  let gF := vars.filter (fun kv => !hasSub tagC kv.1 && !hasSub tagS kv.1 && hasSub tagF kv.1)
  let entryLines := fun (g : List (Str × Str)) =>
    g.map (fun kv => "  ".data ++ kv.1 ++ ": ".data ++ kv.2 ++ [';'])
  joinNl ([":root \x7b".data]
    ++ (if gC.isEmpty then [] else "  /* Colors */".data :: entryLines gC)
    ++ (if gS.isEmpty then [] else "  /* Spacing */".data :: entryLines gS)
    ++ (if gF.isEmpty then [] else "  /* Fonts */".data :: entryLines gF)
    ++ [['\x7d']])

/- ── Rewriter ── -/

/-- Global literal replacement (`content.replace(regex, ...)` with the
escaped literal, i.e. leftmost non-overlapping occurrences of the exact
value text).  The `Nat` is the number of characters still to skip after
a match. -/
def replGo (v w : Str) : Nat → Str → Str
  | n + 1, _ :: rest => replGo v w n rest
  | _, [] => []
  | 0, c :: rest =>
    if v.isPrefixOf (c :: rest) then w ++ replGo v w (v.length - 1) rest
    else c :: replGo v w 0 rest

def replaceAll (v w s : Str) : Str :=
  match v with
  | [] => s
  | _ :: _ => replGo v w 0 s

/-- `content.match(regex).length`: count of leftmost non-overlapping
occurrences. -/
def countGo (v : Str) : Nat → Str → Nat
  | n + 1, _ :: rest => countGo v n rest
  | _, [] => 0
  | 0, c :: rest =>
    if v.isPrefixOf (c :: rest) then 1 + countGo v (v.length - 1) rest
    else countGo v 0 rest

def countOccur (v s : Str) : Nat :=
  match v with
  | [] => 0
  | _ :: _ => countGo v 0 s

/-- The `var(name)` wrapper. -/
def varWrap (n : Str) : Str := "var(".data ++ n ++ [')']

/-- The substitution loop over `varMap` for one file: state is
`(content, replacements so far, modified)`. -/
def substFile (vm : List (Str × Str)) (content : Str) : Str × Nat × Bool :=
  vm.foldl
    (fun st e =>
      let cnt := countOccur e.1 st.1
      if 0 < cnt then (replaceAll e.1 (varWrap e.2) st.1, st.2.1 + cnt, true) else st)
    (content, 0, false)

/-- The substitution step alone (rewritten text of one file). -/
def substFileText (vm : List (Str × Str)) (content : Str) : Str :=
  (substFile vm content).1

/-- Per-file apply branch: substitution, then `:root`-block injection at
the top when the file was modified and contains no `:root` yet.  Returns
the written content and the per-file replacement count. -/
def applyFile (vm : List (Str × Str)) (rootBlock content : Str) : Str × Nat :=
  let st := substFile vm content
  if st.2.2 then
    (if hasSub ":root".data st.1 then st.1 else rootBlock ++ "\n\n".data ++ st.1, st.2.1)
  else (content, st.2.1)

/- ── The whole pipeline (`main`, reporting paths omitted) ── -/

/-- Run configuration (`dryRun` is `--dry-run`/`previewOnly`; `pre` is
the `--prefix` string). -/
structure Options where
  dryRun : Bool
  min : Nat
  scope : Scope
  pre : Str

/-- Outcome of one run over `(path, content)` pairs: `noRepeats` is the
early exit when the selection is empty; otherwise the final per-file
contents, the rendered `:root` block, and the total replacement count —
which only the apply branch computes (`none` under `--dry-run`). -/
inductive RunOutcome
  | noRepeats
  | done (files : List (Str × Str)) (rootBlock : Str) (counts : Option Nat)
deriving DecidableEq, Repr, Inhabited

def mainRun (files : List (Str × Str)) (opts : Options) : RunOutcome :=
  let allValues := aggregateAll files opts.scope
  let repeated := selectMin opts.min allValues
  if repeated.isEmpty then RunOutcome.noRepeats else
  let varMap := nameAll opts.pre (repeated.map (fun kv => (kv.1, kv.2.ty)))
  let rootVars := varMap.map (fun e => (e.2, e.1))
  let rootBlock := generateRootBlock rootVars opts.pre
  if opts.dryRun then RunOutcome.done files rootBlock none
  else
    let results := files.map (fun f => (f.1, applyFile varMap rootBlock f.2))
    RunOutcome.done (results.map (fun r => (r.1, r.2.1))) rootBlock
      (some ((results.map (fun r => r.2.2)).sum))

/- ── Auxiliary definitions used by the statements below ── -/

/-- Projections of a `RunOutcome` (`none` on the `noRepeats` early exit). -/
def outcomeFiles : RunOutcome → Option (List (Str × Str))
  | RunOutcome.noRepeats => none
  | RunOutcome.done fs _ _ => some fs

def outcomeBlock : RunOutcome → Option Str
  | RunOutcome.noRepeats => none
  | RunOutcome.done _ rb _ => some rb

def outcomeCounts : RunOutcome → Option (Option Nat)
  | RunOutcome.noRepeats => none
  | RunOutcome.done _ _ cnt => some cnt

/-- One `addValue` call: `(value, category, location)`. -/
structure Addition where
  value : Str
  ty : VType
  loc : Loc
deriving DecidableEq, Repr, Inhabited

/-- The `addValue` calls of one line. -/
def lineAdds (file : Str) (lineNum : Nat) (ts : List Triple) : List Addition :=
  ts.map (fun t => ⟨t.value, t.ty, ⟨file, lineNum, t.prop⟩⟩)

/-- The `addValue` calls of a list of lines, starting at 0-based index `i`. -/
def linesAdds (file : Str) (scope : Scope) : Nat → List Str → List Addition
  | _, [] => []
  | i, l :: ls =>
    lineAdds file (i + 1) (lineTriples scope l) ++ linesAdds file scope (i + 1) ls

/-- The `addValue` calls of one file, in line order. -/
def fileAdds (file content : Str) (scope : Scope) : List Addition :=
  linesAdds file scope 0 (splitNl content)

/-- All `addValue` calls of a run, in discovery order (file order, then
line order within a file). -/
def allAdds (files : List (Str × Str)) (scope : Scope) : List Addition :=
  files.foldr (fun f acc => fileAdds f.1 f.2 scope ++ acc) []

/-- Folding a flat addition list into a map from the empty map. -/
def buildMap (adds : List Addition) : VMap :=
  adds.foldl (fun m a => addValue m a.value a.ty a.loc) []

/-- Number of entries of category `ty` among the first `i` selected
entries (the value of that category's counter when entry `i` is named). -/
def countTyBefore (entries : List (Str × VType)) (i : Nat) (ty : VType) : Nat :=
  ((entries.take i).filter (fun e => e.2 == ty)).length

/- ── Escaping for the replacement pattern (`main`, apply branch) ── -/

/-- The characters escaped by
`value.replace(/[.*+?^${}()|[\]\\]/g, "\\$&")`. -/
def regexSpecials : List Char :=
  ['.', '*', '+', '?', '^', '$', '\x7b', '\x7d', '(', ')', '|', '[', ']', '\\']

/-- The escaping itself: a backslash before every special character. -/
def escapeRegex (v : Str) : Str :=
  v.foldr (fun c acc => if c ∈ regexSpecials then '\\' :: c :: acc else c :: acc) []

/-- Reading a pattern as a plain literal-token sequence: a backslash
followed by a special character is that literal character; an unescaped
special character (or a backslash escape of a non-special character,
e.g. the class `\d`) has meta-meaning, and the pattern is then not a
plain literal (`none`). -/
def regexTokens : Str → Option Str
  | [] => some []
  | c :: rest =>
    if c = '\\' then
      match rest with
      | [] => none
      | c2 :: rest2 =>
        if c2 ∈ regexSpecials then (regexTokens rest2).map (c2 :: ·) else none
    else if c ∈ regexSpecials then none
    else (regexTokens rest).map (c :: ·)

/-- Split at the leftmost non-overlapping occurrences of `v` (the
segments between the matches replaced by `replaceAll`). -/
def splitGo (v : Str) : Nat → Str → List Str
  | n + 1, _ :: rest => splitGo v n rest
  | _, [] => [[]]
  | 0, c :: rest =>
    if v.isPrefixOf (c :: rest) then [] :: splitGo v (v.length - 1) rest
    else
      match splitGo v 0 rest with
      | [] => [[c]]
      | p :: ps => (c :: p) :: ps

def splitAll (v s : Str) : List Str :=
  match v with
  | [] => [s]
  | _ :: _ => splitGo v 0 s

/-- Join a list of segments with a separator (the reassembly of
`splitAll` segments; `joinWith v (splitAll v s) = s`). -/
def joinWith (sep : Str) : List Str → Str
  | [] => []
  | [x] => x
  | x :: xs => x ++ sep ++ joinWith sep xs

/-- The additions whose normalized value is `v`, in discovery order. -/
def addsFor (v : Str) (adds : List Addition) : List Addition :=
  adds.filter (fun a => a.value == v)

/-- The effect on a map entry of folding in the additions for its value:
first addition of a fresh value creates the entry and fixes its
category; every further addition only appends its location. -/
def combineAdds (v : Str) : Option ExtractedValue → List Addition → Option ExtractedValue
  | mv, [] => mv
  | none, a :: as_ => some ⟨v, a.ty, (a :: as_).map (fun x => x.loc)⟩
  | some e, l => some { e with locations := e.locations ++ l.map (fun x => x.loc) }

/-- The key list of a map (insertion order). -/
def keysOf (m : VMap) : List Str := m.map (fun kv => kv.1)

/-- `Map.get`: the entry stored under a key. -/
def lookupV : VMap → Str → Option ExtractedValue
  | [], _ => none
  | (k, e) :: rest, v => if k = v then some e else lookupV rest v

/-- The per-line view of the whole substitution loop: every `varMap`
entry replaced in order within one line.  When no mapped value or name
contains a newline, the whole-text substitution acts as this function on
each line (proved below). -/
def substLine (vm : List (Str × Str)) (l : Str) : Str :=
  vm.foldl (fun s e => replaceAll e.1 (varWrap e.2) s) l

/- ════════════════════════ Theorems ════════════════════════ -/

/-- Helper for C1: the naming loop at position `i`, for arbitrary
starting counters. -/
theorem nameGo_get (pre : Str) (cs : Counters) (entries : List (Str × VType))
    (i : Nat) (hi : i < entries.length) :
    (nameGo pre cs entries)[i]? =
      some ((entries.get ⟨i, hi⟩).1,
        generateVarName pre (entries.get ⟨i, hi⟩).2 (entries.get ⟨i, hi⟩).1
          (getC cs (entries.get ⟨i, hi⟩).2 + countTyBefore entries i (entries.get ⟨i, hi⟩).2)) := by
  induction entries generalizing cs i with
  | nil => exact absurd hi (by simp)
  | cons e rest ih =>
    match i with
    | 0 => simp [nameGo, countTyBefore]
    | i + 1 =>
      have hi' : i < rest.length := by simpa using hi
      have : getC (bumpC cs e.2) (rest.get ⟨i, hi'⟩).2 + countTyBefore rest i (rest.get ⟨i, hi'⟩).2
          = getC cs (rest.get ⟨i, hi'⟩).2 + countTyBefore (e :: rest) (i + 1) (rest.get ⟨i, hi'⟩).2 := by
        rcases e with ⟨v, ty⟩
        rcases ty <;> rcases h : (rest.get ⟨i, hi'⟩).2 <;>
          simp [bumpC, getC, countTyBefore, h] <;> omega
      simp only [nameGo, List.getElem?_cons_succ]
      rw [ih (bumpC cs e.2) i hi']
      simp only [List.get_eq_getElem] at this ⊢
      rw [this]
      simp

/-- C1 (amended): a selected color value literally equal (lowercased) to
`#fff`/`#ffffff` is named `--{prefix}-color-white` and one equal to
`#000`/`#000000` is named `--{prefix}-color-black`; but white/black DO
consume a color ordinal (`counters[info.type]++` runs unconditionally),
so every other color at color-position `k` (0-based, counting ALL colors
selected before it, white/black included) is named
`--{prefix}-color-{k+1}`.  In particular, if the first selected color is
`#ffffff`, the next distinct selected color is named
`--{prefix}-color-2`, not `--{prefix}-color-1`. -/
theorem c1_color_naming (pre : Str) (entries : List (Str × VType))
    (i : Nat) (hi : i < entries.length) (hc : (entries.get ⟨i, hi⟩).2 = VType.color) :
    (nameAll pre entries)[i]? =
      some ((entries.get ⟨i, hi⟩).1,
        let hex := (entries.get ⟨i, hi⟩).1.map lowerChar
        if hex = "#fff".data ∨ hex = "#ffffff".data then
          "--".data ++ pre ++ "-color-white".data
        else if hex = "#000".data ∨ hex = "#000000".data then
          "--".data ++ pre ++ "-color-black".data
        else
          "--".data ++ pre ++ "-color-".data
            ++ natDigits (countTyBefore entries i VType.color + 1)) := by
  have h := nameGo_get pre ⟨0, 0, 0⟩ entries i hi
  rw [hc] at h
  simpa [nameAll, generateVarName, getC] using h

/-- Witness for C1 (amended): `#ffffff` first, `#ff0000` second — the
second color is named `--cv-color-2`. -/
theorem c1_color_naming_witness :
    ∃ hi : 1 < ([("#ffffff".data, VType.color), ("#ff0000".data, VType.color)] : List (Str × VType)).length,
      ([("#ffffff".data, VType.color), ("#ff0000".data, VType.color)].get
        ⟨1, hi⟩).2 = VType.color
      ∧ (nameAll "cv".data [("#ffffff".data, VType.color), ("#ff0000".data, VType.color)])[1]?
          = some ("#ff0000".data, "--cv-color-2".data) := by
  refine ⟨by decide, by decide, ?_⟩
  rw [c1_color_naming "cv".data
    [("#ffffff".data, VType.color), ("#ff0000".data, VType.color)] 1 (by decide) (by decide)]
  decide

/-- C1 (counterexample): with `#ffffff` selected first and `#ff0000`
selected second, the naming loop yields `--cv-color-2` for the second
color, not `--cv-color-1` as the claim states; a dry run over a file
that selects exactly these two colors produces a `:root` block
containing `--cv-color-2: #ff0000;` and no `--cv-color-1` at all. -/
theorem c1_counterexample :
    nameAll "cv".data [("#ffffff".data, VType.color), ("#ff0000".data, VType.color)]
      = [("#ffffff".data, "--cv-color-white".data), ("#ff0000".data, "--cv-color-2".data)]
    ∧ (outcomeBlock (mainRun
        [("a.css".data,
          "color: #ffffff;\ncolor: #ffffff;\ncolor: #ff0000;\ncolor: #ff0000;".data)]
        ⟨true, 2, Scope.colors, "cv".data⟩)).map
          (fun rb => (hasSub "--cv-color-2: #ff0000;".data rb,
                      hasSub "--cv-color-1".data rb))
        = some (true, false)
    ∧ "--cv-color-2".data ≠ "--cv-color-1".data := by
  refine ⟨by decide, by decide, by decide⟩

/-- C2 (amended): a `previewOnly` run leaves every input file's content
identical and produces the same `:root` block as the apply run (the two
branches share the whole pipeline up to the branch), but it computes no
replacement counts at all — only the apply branch counts replacements. -/
theorem c2_preview_frame (files : List (Str × Str)) (minOcc : Nat) (scope : Scope) (pre : Str) :
    mainRun files ⟨true, minOcc, scope, pre⟩
      = match mainRun files ⟨false, minOcc, scope, pre⟩ with
        | RunOutcome.noRepeats => RunOutcome.noRepeats
        | RunOutcome.done _ rb _ => RunOutcome.done files rb none := by
  unfold mainRun
  by_cases h : (selectMin minOcc (aggregateAll files scope)).isEmpty <;> simp [h]

/-- C2 (counterexample): on a file where the apply run performs one
replacement, the preview run's replacement count is not that of the
apply run — the preview branch computes none (`none` vs `some 1`).  The
files and the `:root` block do agree. -/
theorem c2_counterexample :
    outcomeCounts (mainRun [("a.css".data, "color: #FF0000;\ncolor: #ff0000;".data)]
        ⟨true, 2, Scope.all, "cv".data⟩) = some none
    ∧ outcomeCounts (mainRun [("a.css".data, "color: #FF0000;\ncolor: #ff0000;".data)]
        ⟨false, 2, Scope.all, "cv".data⟩) = some (some 1)
    ∧ (some (none : Option Nat) ≠ some (some 1)) := by
  refine ⟨by decide, by decide, by decide⟩

/-- C3 (counterexample): the Rewriter's substitution step operates on
the whole file text; a line whose trimmed form starts with the block
comment opener `/*` (a line the Classifier skips) IS rewritten when it
contains a mapped literal. -/
theorem c3_counterexample :
    skipLine "/* #ff0000 */".data = true
    ∧ substFileText [("#ff0000".data, "--cv-color-1".data)] "/* #ff0000 */".data
        = "/* var(--cv-color-1) */".data
    ∧ substFileText [("#ff0000".data, "--cv-color-1".data)] "/* #ff0000 */".data
        ≠ "/* #ff0000 */".data := by
  refine ⟨by decide, by decide, by decide⟩

/-- C3 (amended): a line whose trimmed form starts with `--`, `/*` or
`//`, or that contains `var(`, is never re-extracted (the Classifier
skips it and yields zero triples); but the substitution step is a
whole-text replacement and such lines MAY be rewritten when they contain
a mapped literal. -/
theorem c3_skipped_never_extracted (scope : Scope) (l : Str)
    (h : ("--".data).isPrefixOf (trimStr l) ∨ ("/*".data).isPrefixOf (trimStr l)
        ∨ ("//".data).isPrefixOf (trimStr l) ∨ hasSub "var(".data l) :
    lineTriples scope l = [] := by
  have hs : skipLine l = true := by
    unfold skipLine
    rcases h with h | h | h | h <;> simp [h]
  unfold lineTriples
  simp [hs]

/-- Witness for C3 (amended). -/
theorem c3_skipped_never_extracted_witness :
    (("/*".data).isPrefixOf (trimStr " /* color: #ff0000; */".data) = true)
    ∧ lineTriples Scope.all " /* color: #ff0000; */".data = [] :=
  ⟨by decide, c3_skipped_never_extracted Scope.all " /* color: #ff0000; */".data
    (Or.inr (Or.inl (by decide)))⟩

/-- C4 (counterexample): the source pattern is `#(?:[0-9a-fA-F]{3,8})\b`
— a `#` followed by five hex digits IS extracted, contradicting the
claimed 3/4/6/8-only rule. -/
theorem c4_counterexample :
    extractHexLine "color: #abcde;".data = ["#abcde".data]
    ∧ (("#abcde".data).drop 1).length = 5
    ∧ ¬(5 = 3 ∨ 5 = 4 ∨ 5 = 6 ∨ 5 = 8) := by
  refine ⟨by decide, by decide, by decide⟩

/-- Helper for C4: hex digits are word characters. -/
theorem hex_isWord (c : Char) (h : isHexDigitC c = true) : isWordChar c = true := by
  simp only [isHexDigitC, Char.isDigit, Bool.or_eq_true, Bool.and_eq_true,
    decide_eq_true_eq] at h
  simp only [isWordChar, Bool.or_eq_true, Char.isAlphanum, Char.isAlpha, Char.isDigit,
    Char.isUpper, Char.isLower, Bool.and_eq_true, decide_eq_true_eq]
  rcases h with (h | ⟨h1, h2⟩) | ⟨h1, h2⟩
  · left
    right
    exact h
  · left
    left
    right
    have h3 : c ≤ 'z' := le_trans h2 (by decide)
    exact ⟨Char.le_def.mp h1, Char.le_def.mp h3⟩
  · left
    left
    left
    have h3 : c ≤ 'Z' := le_trans h2 (by decide)
    exact ⟨Char.le_def.mp h1, Char.le_def.mp h3⟩

/-- Helper for C4: everything `takeWhile` keeps satisfies the predicate. -/
theorem takeWhile_all (p : Char → Bool) : ∀ l : Str, ((l.takeWhile p).all p) = true
  | [] => rfl
  | c :: rest => by
    by_cases hc : p c = true
    · simp [List.takeWhile_cons, hc, takeWhile_all p rest]
    · simp [List.takeWhile_cons, hc]

/-- Helper for C4: `takeWhile` over a run followed by a stopper takes
exactly the run. -/
theorem takeWhile_append_exact (p : Char → Bool) (ds b : Str)
    (hds : ds.all p = true) (hb : ∀ c bs, b = c :: bs → p c = false) :
    (ds ++ b).takeWhile p = ds := by
  induction ds with
  | nil =>
    cases b with
    | nil => rfl
    | cons c bs => simp [List.takeWhile_cons, hb c bs rfl]
  | cons d ds ih =>
    simp only [List.all_cons, Bool.and_eq_true] at hds
    simp [List.takeWhile_cons, hds.1, ih hds.2]

/-- Helper for C4: a head match succeeds exactly on `#` followed by a
maximal hex-digit run of length 3 to 8 ending at a word boundary. -/
theorem hexHere_some_iff (b m : Str) :
    hexHere b = some m ↔
      ∃ ds bb, b = '#' :: (ds ++ bb) ∧ 3 ≤ ds.length ∧ ds.length ≤ 8
        ∧ ds.all isHexDigitC = true ∧ nonWordHead bb = true ∧ m = '#' :: ds := by
  constructor
  · intro h
    match b with
    | [] => exact absurd h (by simp [hexHere])
    | c :: rest =>
      simp only [hexHere] at h
      split at h
      · next hc =>
        subst hc
        split at h
        · next hcond =>
          injection h with h'
          simp only [Bool.and_eq_true, decide_eq_true_eq] at hcond
          rcases List.takeWhile_prefix (p := isHexDigitC) (l := rest) with ⟨t, ht⟩
          have hdrop : rest.drop (rest.takeWhile isHexDigitC).length = t := by
            have hdl := List.drop_left (rest.takeWhile isHexDigitC) t
            rw [ht] at hdl
            exact hdl
          refine ⟨rest.takeWhile isHexDigitC, t, by rw [ht], hcond.1.1, hcond.1.2, ?_, ?_, h'.symm⟩
          · exact takeWhile_all isHexDigitC rest
          · rw [← hdrop]
            exact hcond.2
        · exact absurd h (by simp)
      · exact absurd h (by simp)
  · rintro ⟨ds, bb, rfl, h3, h8, hall, hnw, rfl⟩
    have hstop : ∀ c bs, bb = c :: bs → isHexDigitC c = false := by
      intro c bs hbb
      subst hbb
      simp only [nonWordHead, Bool.not_eq_true'] at hnw
      cases hhex : isHexDigitC c with
      | false => rfl
      | true => exact absurd (hex_isWord c hhex) (by simp [hnw])
    have htw : (ds ++ bb).takeWhile isHexDigitC = ds := takeWhile_append_exact _ _ _ hall hstop
    have hdrop : (ds ++ bb).drop ds.length = bb := List.drop_left _ _
    simp only [hexHere, if_pos rfl, htw, hdrop]
    simp [h3, h8, hnw]

/-- Helper for C4: the canonical shape of a head match: the line suffix
starts with `#` and the match is `#` plus the maximal hex run. -/
theorem hexHere_some_canon (b m : Str) (h : hexHere b = some m) :
    ∃ rest, b = '#' :: rest ∧ m = '#' :: rest.takeWhile isHexDigitC := by
  match b with
  | [] => exact absurd h (by simp [hexHere])
  | c :: rest =>
    simp only [hexHere] at h
    split at h
    · next hc =>
      subst hc
      split at h
      · injection h with h'
        exact ⟨rest, rfl, h'.symm⟩
      · exact absurd h (by simp)
    · exact absurd h (by simp)

/-- Helper for C4: the skip counter of the hex scanner just drops
characters. -/
theorem scanHexGo_skip (n : Nat) (l : Str) :
    scanHexGo n l = scanHexGo 0 (l.drop n) := by
  induction l generalizing n with
  | nil => cases n <;> rfl
  | cons c rest ih =>
    cases n with
    | zero => rfl
    | succ m => simpa using ih m

/-- Helper for C4: one unfolding step of the scanner at scan state 0. -/
theorem scanHexGo_zero_cons (c : Char) (rest : Str) :
    scanHexGo 0 (c :: rest) =
      match hexHere (c :: rest) with
      | some v => v :: scanHexGo (v.length - 1) rest
      | none => scanHexGo 0 rest := rfl

/-- Helper for C4 (soundness): every scanned value is a head match of
some suffix of the line. -/
theorem scanHexGo_src (l : Str) : ∀ (n : Nat) (v0 : Str), v0 ∈ scanHexGo n l →
    ∃ a b, l = a ++ b ∧ hexHere b = some v0 := by
  induction l with
  | nil =>
    intro n v0 h
    simp [scanHexGo] at h
  | cons c rest ih =>
    intro n v0 h
    match n with
    | m + 1 =>
      rcases ih m v0 h with ⟨a, b, heq, hb⟩
      exact ⟨c :: a, b, by rw [heq]; rfl, hb⟩
    | 0 =>
      rw [scanHexGo_zero_cons] at h
      cases hh : hexHere (c :: rest) with
      | some v1 =>
        rw [hh] at h
        rcases List.mem_cons.1 h with rfl | h'
        · exact ⟨[], c :: rest, rfl, hh⟩
        · rcases ih (v1.length - 1) v0 h' with ⟨a, b, heq, hb⟩
          exact ⟨c :: a, b, by rw [heq]; rfl, hb⟩
      | none =>
        rw [hh] at h
        rcases ih 0 v0 h with ⟨a, b, heq, hb⟩
        exact ⟨c :: a, b, by rw [heq]; rfl, hb⟩

/-- Helper for C4: a hex run stops before a `#`. -/
theorem takeWhile_stops (p : Char → Bool) (xs : Str) (c : Char) (ys : Str)
    (hc : p c = false) : ((xs ++ c :: ys).takeWhile p).length ≤ xs.length := by
  induction xs with
  | nil => simp [List.takeWhile_cons, hc]
  | cons x xs ih =>
    by_cases hx : p x = true
    · simpa [List.takeWhile_cons, hx] using ih
    · simp [List.takeWhile_cons, hx]

/-- Helper for C4 (completeness): a head match of any suffix is found by
the scan — the scan's skip-ahead can never jump over a `#` that starts a
match, because skipped spans consist of a `#` and hex digits only. -/
theorem hexHere_complete (fuel : Nat) : ∀ (l a b v0 : Str), l.length ≤ fuel →
    l = a ++ b → hexHere b = some v0 → v0 ∈ scanHexGo 0 l := by
  induction fuel with
  | zero =>
    intro l a b v0 hlen heq hb
    have hl : l = [] := List.eq_nil_of_length_eq_zero (Nat.le_zero.mp hlen)
    subst hl
    have hb0 : b = [] := (List.append_eq_nil.mp heq.symm).2
    subst hb0
    exact absurd hb (by simp [hexHere])
  | succ m ih =>
    intro l a b v0 hlen heq hb
    rcases hexHere_some_canon b v0 hb with ⟨bb0, hbb0, -⟩
    cases a with
    | nil =>
      simp only [List.nil_append] at heq
      subst heq
      rw [hbb0, scanHexGo_zero_cons, ← hbb0, hb]
      exact List.mem_cons_self _ _
    | cons c a' =>
      have heq' : l = c :: (a' ++ b) := by rw [heq]; rfl
      subst heq'
      have hlen' : (a' ++ b).length ≤ m := by simpa using hlen
      rw [scanHexGo_zero_cons]
      cases hh : hexHere (c :: (a' ++ b)) with
      | none => exact ih (a' ++ b) a' b v0 hlen' rfl hb
      | some v1 =>
        rcases hexHere_some_canon _ _ hh with ⟨rest1, hrest1, hv1⟩
        have hrest1' : rest1 = a' ++ b := by
          injection hrest1 with h1 h2
          exact h2.symm
        subst hrest1'
        show v0 ∈ v1 :: scanHexGo (v1.length - 1) (a' ++ b)
        have hk : v1.length - 1 = ((a' ++ b).takeWhile isHexDigitC).length := by
          rw [hv1]
          simp
        have hkle : ((a' ++ b).takeWhile isHexDigitC).length ≤ a'.length := by
          rw [hbb0]
          exact takeWhile_stops isHexDigitC a' '#' bb0 (by decide)
        have hdropeq : (a' ++ b).drop (v1.length - 1)
            = a'.drop ((a' ++ b).takeWhile isHexDigitC).length ++ b := by
          rw [hk]
          exact List.drop_append_of_le_length hkle
        have hlen'' : (a'.drop ((a' ++ b).takeWhile isHexDigitC).length ++ b).length ≤ m := by
          have hd : (a'.drop ((a' ++ b).takeWhile isHexDigitC).length).length ≤ a'.length := by
            simp
          have : (a'.drop ((a' ++ b).takeWhile isHexDigitC).length ++ b).length
              ≤ (a' ++ b).length := by
            simp only [List.length_append]
            omega
          exact le_trans this hlen'
        have hmem := ih _ _ b v0 hlen'' rfl hb
        rw [scanHexGo_skip, hdropeq]
        exact List.mem_cons_of_mem v1 hmem

/-- C4 (amended): the hex classifier extracts a value from a line
exactly when the line contains a `#` followed by a maximal run of 3 to
8 hexadecimal digits ending at a word boundary — so 5- and 7-digit
sequences ARE extracted, contrary to the claimed 3/4/6/8-only rule —
and the extracted value is the match lowercased. -/
theorem c4_hex_extraction (l v : Str) :
    v ∈ extractHexLine l ↔
      ∃ a ds b, l = a ++ '#' :: (ds ++ b) ∧ 3 ≤ ds.length ∧ ds.length ≤ 8
        ∧ ds.all isHexDigitC = true ∧ nonWordHead b = true
        ∧ v = ('#' :: ds).map lowerChar := by
  constructor
  · intro h
    rcases List.mem_map.1 h with ⟨v0, hmem, rfl⟩
    rcases scanHexGo_src l 0 v0 hmem with ⟨a, b, heq, hb⟩
    rcases (hexHere_some_iff b v0).1 hb with ⟨ds, bb, hbeq, h3, h8, hall, hnw, hm⟩
    exact ⟨a, ds, bb, by rw [heq, hbeq], h3, h8, hall, hnw, by rw [hm]⟩
  · rintro ⟨a, ds, b, heq, h3, h8, hall, hnw, hv⟩
    have hb : hexHere ('#' :: (ds ++ b)) = some ('#' :: ds) :=
      (hexHere_some_iff _ _).2 ⟨ds, b, rfl, h3, h8, hall, hnw, rfl⟩
    have hmem := hexHere_complete l.length l a ('#' :: (ds ++ b)) ('#' :: ds)
      (le_refl _) heq hb
    exact hv ▸ List.mem_map_of_mem _ hmem

/-- C5 (counterexample): extraction lowercases hex values but the
substitution is exact-text; over the file
`"color: #FF0000;\ncolor: #ff0000;"` the apply run replaces `#ff0000`
(the rewritten file contains `var(--cv-color-1)`), yet re-running the
Classifier over the rewritten file still yields one occurrence of
`#ff0000` — from the untouched uppercase spelling — so a second pipeline
pass selects a nonzero number of occurrences of the replaced literal. -/
theorem c5_counterexample :
    (outcomeFiles (mainRun [("a.css".data, "color: #FF0000;\ncolor: #ff0000;".data)]
        ⟨false, 2, Scope.all, "cv".data⟩)).map
      (fun fs =>
        (hasSub (varWrap "--cv-color-1".data) (fs.headD ([], [])).2,
         ((extractValuesFile (fs.headD ([], [])).2 "a.css".data Scope.all).lookup
            "#ff0000".data).map (fun e => e.locations.length)))
      = some (true, some 1)
    ∧ (some (1 : Nat) ≠ some 0) := by
  refine ⟨by decide, by decide⟩

/-- Helper: the skip counter just drops characters. -/
theorem splitGo_skip (v : Str) (n : Nat) (s : Str) :
    splitGo v n s = splitGo v 0 (s.drop n) := by
  induction s generalizing n with
  | nil => cases n <;> rfl
  | cons c rest ih =>
    cases n with
    | zero => rfl
    | succ m => simpa using ih m

theorem replGo_skip (v w : Str) (n : Nat) (s : Str) :
    replGo v w n s = replGo v w 0 (s.drop n) := by
  induction s generalizing n with
  | nil => cases n <;> rfl
  | cons c rest ih =>
    cases n with
    | zero => rfl
    | succ m => simpa using ih m

/-- Helper for C5: `hasSub` decides the substring (infix) relation. -/
theorem hasSub_spec (pat : Str) : ∀ s : Str, hasSub pat s = true ↔ pat <:+: s := by
  intro s
  induction s with
  | nil => simp [hasSub]
  | cons c rest ih =>
    simp [hasSub, Bool.or_eq_true, List.infix_cons_iff, List.isPrefixOf_iff_prefix, ih]

/-- Helper for C5: one unfolding step of replacement and counting. -/
theorem replGo_zero_cons (v w : Str) (c : Char) (rest : Str) :
    replGo v w 0 (c :: rest) =
      if v.isPrefixOf (c :: rest) then w ++ replGo v w (v.length - 1) rest
      else c :: replGo v w 0 rest := rfl

theorem countGo_zero_cons (v : Str) (c : Char) (rest : Str) :
    countGo v 0 (c :: rest) =
      if v.isPrefixOf (c :: rest) then 1 + countGo v (v.length - 1) rest
      else countGo v 0 rest := rfl

/-- Helper for C5: zero matches means replacement changes nothing. -/
theorem replaceAll_of_count_zero (v w : Str) :
    ∀ s : Str, countOccur v s = 0 → replaceAll v w s = s := by
  match v with
  | [] => intro s _; rfl
  | vh :: vt =>
    intro s
    induction s with
    | nil => intro _; rfl
    | cons c rest ih =>
      intro h
      simp only [countOccur] at h
      rw [countGo_zero_cons] at h
      simp only [replaceAll]
      rw [replGo_zero_cons]
      split at h
      · omega
      · next hp =>
        rw [if_neg hp]
        have hr := ih (by simpa [countOccur] using h)
        simp only [replaceAll] at hr
        rw [hr]

/-- Helper for C5: the rewritten text either is unchanged or contains
the replacement text. -/
theorem replaceAll_self_or_infix (v w : Str) :
    ∀ s : Str, replaceAll v w s = s ∨ w <:+: replaceAll v w s := by
  match v with
  | [] => intro s; exact Or.inl rfl
  | vh :: vt =>
    intro s
    induction s with
    | nil => exact Or.inl rfl
    | cons c rest ih =>
      simp only [replaceAll] at *
      rw [replGo_zero_cons]
      by_cases hp : (vh :: vt).isPrefixOf (c :: rest)
      · rw [if_pos hp]
        exact Or.inr (List.prefix_append w _).isInfix
      · rw [if_neg hp]
        rcases ih with h | h
        · exact Or.inl (by rw [h])
        · exact Or.inr (h.trans (List.suffix_cons c _).isInfix)

/-- Helper for C5: the text component of the substitution loop is the
unconditional replacement fold — the `matches.length > 0` guard only
skips replacements that would change nothing. -/
theorem substFile_fst (vm : List (Str × Str)) :
    ∀ st : Str × Nat × Bool,
      (vm.foldl
        (fun st e =>
          let cnt := countOccur e.1 st.1
          if 0 < cnt then (replaceAll e.1 (varWrap e.2) st.1, st.2.1 + cnt, true) else st)
        st).1
      = vm.foldl (fun s e => replaceAll e.1 (varWrap e.2) s) st.1 := by
  induction vm with
  | nil => intro st; rfl
  | cons e vm' ih =>
    intro st
    rw [List.foldl_cons, List.foldl_cons, ih]
    by_cases hc : 0 < countOccur e.1 st.1
    · simp [hc]
    · have h0 : countOccur e.1 st.1 = 0 := by omega
      simp [hc, replaceAll_of_count_zero e.1 (varWrap e.2) st.1 h0]

theorem substFileText_eq (vm : List (Str × Str)) (content : Str) :
    substFileText vm content
      = vm.foldl (fun s e => replaceAll e.1 (varWrap e.2) s) content := by
  unfold substFileText substFile
  exact substFile_fst vm (content, 0, false)

/-- Helper for C5: one unfolding step of the line splitter. -/
theorem splitNl_cons (c : Char) (rest : Str) :
    splitNl (c :: rest) =
      if c = '\n' then [] :: splitNl rest
      else match splitNl rest with
        | [] => [[c]]
        | p :: ps => (c :: p) :: ps := rfl

/-- Helper for C5: the line splitter returns a nonempty list whose head
is a prefix of the input. -/
theorem splitNl_shape : ∀ s : Str, ∃ p ps, splitNl s = p :: ps ∧ p <+: s
  | [] => ⟨[], [], rfl, List.nil_prefix⟩
  | c :: rest => by
    by_cases hc : c = '\n'
    · subst hc
      exact ⟨[], splitNl rest, by rw [splitNl_cons, if_pos rfl], List.nil_prefix⟩
    · rcases splitNl_shape rest with ⟨p, ps, hsp, hpre⟩
      refine ⟨c :: p, ps, ?_, ?_⟩
      · rw [splitNl_cons, if_neg hc, hsp]
      · rcases hpre with ⟨t, ht⟩
        exact ⟨t, by simp [ht]⟩

/-- Helper for C5: prepending newline-free text extends the first line. -/
theorem splitNl_append_left : ∀ (w : Str), '\n' ∉ w → ∀ (s p : Str) (ps : List Str),
    splitNl s = p :: ps → splitNl (w ++ s) = (w ++ p) :: ps := by
  intro w
  induction w with
  | nil =>
    intro _ s p ps h
    simpa using h
  | cons c w' ih =>
    intro hw s p ps h
    have hc : ¬ c = '\n' := fun hh => hw (by simp [hh])
    have hw' : '\n' ∉ w' := fun hh => hw (List.mem_cons_of_mem c hh)
    rw [List.cons_append, splitNl_cons, if_neg hc, ih hw' s p ps h]
    rfl

/-- Helper for C5: replacement after a leading occurrence. -/
theorem replaceAll_append_self (vh : Char) (vt w x : Str) :
    replaceAll (vh :: vt) w ((vh :: vt) ++ x) = w ++ replaceAll (vh :: vt) w x := by
  simp only [replaceAll]
  rw [List.cons_append, replGo_zero_cons]
  have hp : (vh :: vt).isPrefixOf (vh :: (vt ++ x)) := by
    rw [List.isPrefixOf_iff_prefix]
    exact ⟨x, by simp⟩
  rw [if_pos hp]
  congr 1
  rw [replGo_skip]
  have hlen : (vh :: vt).length - 1 = vt.length := by simp
  rw [hlen, List.drop_left]

/-- Helper for C5: when neither the literal nor the replacement contains
a newline, whole-text replacement acts on each line separately. -/
theorem splitNl_replaceAll (vh : Char) (vt w : Str) (hv : '\n' ∉ vh :: vt) (hw : '\n' ∉ w) :
    ∀ (n : Nat) (s : Str), s.length ≤ n →
      splitNl (replaceAll (vh :: vt) w s)
        = (splitNl s).map (replaceAll (vh :: vt) w) := by
  intro n
  induction n with
  | zero =>
    intro s hs
    have hnil : s = [] := List.eq_nil_of_length_eq_zero (Nat.le_zero.mp hs)
    subst hnil
    rfl
  | succ m ih =>
    intro s hs
    match s with
    | [] => rfl
    | c :: rest =>
      by_cases hp : (vh :: vt).isPrefixOf (c :: rest)
      · rcases List.isPrefixOf_iff_prefix.mp hp with ⟨t, ht⟩
        rcases splitNl_shape t with ⟨p, ps, hsp, -⟩
        have hlt : t.length ≤ m := by
          have hlen1 : ((vh :: vt) ++ t).length = (c :: rest).length := by rw [ht]
          simp only [List.length_append, List.length_cons] at hlen1 ⊢
          have hs' : rest.length ≤ m := by simpa using hs
          omega
        have hX : splitNl (replaceAll (vh :: vt) w t)
            = (replaceAll (vh :: vt) w p) :: (ps.map (replaceAll (vh :: vt) w)) := by
          rw [ih t hlt, hsp]
          rfl
        rw [← ht, replaceAll_append_self,
          splitNl_append_left w hw _ _ _ hX,
          splitNl_append_left (vh :: vt) hv t p ps hsp]
        simp only [List.map_cons]
        rw [replaceAll_append_self]
      · have hs' : rest.length ≤ m := by simpa using hs
        have hIH := ih rest hs'
        by_cases hc : c = '\n'
        · subst hc
          simp only [replaceAll] at hIH ⊢
          rw [replGo_zero_cons, if_neg hp, splitNl_cons, if_pos rfl,
            splitNl_cons, if_pos rfl, hIH]
          rfl
        · rcases splitNl_shape rest with ⟨p, ps, hsp, hpre⟩
          have hfc : replaceAll (vh :: vt) w (c :: p) = c :: replaceAll (vh :: vt) w p := by
            have hnp : ¬ (vh :: vt).isPrefixOf (c :: p) := by
              intro hyes
              apply hp
              rw [List.isPrefixOf_iff_prefix] at hyes ⊢
              rcases hpre with ⟨t2, ht2⟩
              exact hyes.trans (by exact ⟨t2, by simp [ht2]⟩)
            simp only [replaceAll]
            rw [replGo_zero_cons, if_neg hnp]
          simp only [replaceAll] at hIH ⊢
          rw [replGo_zero_cons, if_neg hp, splitNl_cons, if_neg hc,
            splitNl_cons, if_neg hc, hIH, hsp]
          simp only [List.map_cons]
          rw [hfc]

/-- Helper for C5: the whole substitution loop distributes over lines. -/
theorem splitNl_substLine (vm : List (Str × Str)) :
    ∀ content : Str, (∀ p ∈ vm, p.1 ≠ [] ∧ '\n' ∉ p.1 ∧ '\n' ∉ p.2) →
      splitNl (vm.foldl (fun s e => replaceAll e.1 (varWrap e.2) s) content)
        = (splitNl content).map (substLine vm) := by
  induction vm with
  | nil =>
    intro content _
    have hid : substLine [] = fun l : Str => l := rfl
    rw [hid, List.map_id']
    rfl
  | cons e vm' ih =>
    intro content hvm
    obtain ⟨hne, hnl1, hnl2⟩ := hvm e (List.mem_cons_self _ _)
    have hvm' : ∀ p ∈ vm', p.1 ≠ [] ∧ '\n' ∉ p.1 ∧ '\n' ∉ p.2 :=
      fun p hp => hvm p (List.mem_cons_of_mem _ hp)
    have hnlw : '\n' ∉ varWrap e.2 := by
      intro hmem
      simp only [varWrap, List.mem_append] at hmem
      rcases hmem with (h1 | h2) | h3
      · exact absurd h1 (by decide)
      · exact hnl2 h2
      · exact absurd h3 (by decide)
    obtain ⟨vh, vt, hvv⟩ : ∃ vh vt, e.1 = vh :: vt := by
      cases h1 : e.1 with
      | nil => exact absurd h1 hne
      | cons a b => exact ⟨a, b, rfl⟩
    rw [List.foldl_cons, ih (replaceAll e.1 (varWrap e.2) content) hvm', hvv,
      splitNl_replaceAll vh vt (varWrap e.2) (hvv ▸ hnl1) hnlw content.length content
        (le_refl _),
      List.map_map]
    congr 1
    funext l
    simp [substLine, hvv]

/-- Helper for C5: a line is either untouched by the substitution loop
or contains the `var(` wrapper afterwards. -/
theorem substLine_unchanged_or_var (vm : List (Str × Str)) :
    ∀ l : Str, substLine vm l = l ∨ hasSub "var(".data (substLine vm l) = true := by
  induction vm with
  | nil => intro l; exact Or.inl rfl
  | cons e vm' ih =>
    intro l
    have hsubst : substLine (e :: vm') l
        = substLine vm' (replaceAll e.1 (varWrap e.2) l) := rfl
    have hvarw : "var(".data <+: varWrap e.2 :=
      (List.prefix_append "var(".data e.2).trans (List.prefix_append _ _)
    rcases replaceAll_self_or_infix e.1 (varWrap e.2) l with h | h
    · rw [hsubst, h]
      exact ih l
    · rw [hsubst]
      rcases ih (replaceAll e.1 (varWrap e.2) l) with h2 | h2
      · rw [h2]
        right
        rw [hasSub_spec]
        exact (hvarw.isInfix).trans h
      · exact Or.inr h2

/-- C5 (amended): for any value→name mapping whose values are nonempty
and newline-free (as extracted values and generated names are), the
Rewriter's whole-text substitution acts on each line separately; every
line it alters contains the `var(` wrapper afterwards, and any line
containing `var(` — or starting (trimmed) with `--`, as the injected
declaration lines do — yields zero values on re-extraction.  A replaced
literal can therefore only be re-extracted from lines the substitution
left unchanged (e.g. a differently-cased spelling of the normalized
value, as the counterexample exhibits) — re-running the pipeline is NOT
a no-op in general. -/
theorem c5_second_pass (vm : List (Str × Str)) (content : Str) (scope : Scope)
    (hvm : ∀ p ∈ vm, p.1 ≠ [] ∧ '\n' ∉ p.1 ∧ '\n' ∉ p.2) :
    splitNl (substFileText vm content) = (splitNl content).map (substLine vm)
    ∧ (∀ l : Str, substLine vm l = l ∨ hasSub "var(".data (substLine vm l) = true)
    ∧ (∀ l : Str, hasSub "var(".data l = true → lineTriples scope l = [])
    ∧ (∀ l : Str, ("--".data).isPrefixOf (trimStr l) = true → lineTriples scope l = []) := by
  refine ⟨?_, substLine_unchanged_or_var vm, ?_, ?_⟩
  · rw [substFileText_eq]
    exact splitNl_substLine vm content hvm
  · intro l h
    have hs : skipLine l = true := by
      unfold skipLine
      simp [h]
    unfold lineTriples
    simp [hs]
  · intro l h
    have hs : skipLine l = true := by
      unfold skipLine
      simp [h]
    unfold lineTriples
    simp [hs]

/-- Witness for C5 (amended). -/
theorem c5_second_pass_witness :
    (∀ p ∈ [("#ff0000".data, "--cv-color-1".data)], p.1 ≠ [] ∧ '\n' ∉ p.1 ∧ '\n' ∉ p.2)
    ∧ (splitNl (substFileText [("#ff0000".data, "--cv-color-1".data)]
          "color: #FF0000;\ncolor: #ff0000;".data)
        = (splitNl "color: #FF0000;\ncolor: #ff0000;".data).map
            (substLine [("#ff0000".data, "--cv-color-1".data)])
      ∧ (∀ l : Str, substLine [("#ff0000".data, "--cv-color-1".data)] l = l
          ∨ hasSub "var(".data (substLine [("#ff0000".data, "--cv-color-1".data)] l) = true)
      ∧ (∀ l : Str, hasSub "var(".data l = true → lineTriples Scope.all l = [])
      ∧ (∀ l : Str, ("--".data).isPrefixOf (trimStr l) = true
          → lineTriples Scope.all l = [])) :=
  ⟨by decide, c5_second_pass [("#ff0000".data, "--cv-color-1".data)]
    "color: #FF0000;\ncolor: #ff0000;".data Scope.all (by decide)⟩

/-- C6: for a fixed aggregated mapping, the Selector's output at a
larger threshold is a sublist of its output at a smaller threshold
(monotonically non-increasing, and insertion order is preserved), and
the selection itself is an order-preserving sublist of the input. -/
theorem c6_selector_monotone (m1 m2 : Nat) (xs : VMap) (h : m1 ≤ m2) :
    (selectMin m2 xs).Sublist (selectMin m1 xs) ∧ (selectMin m1 xs).Sublist xs := by
  constructor
  · apply List.monotone_filter_right
    intro kv hkv
    simp only [decide_eq_true_eq] at *
    omega
  · exact List.filter_sublist xs

/-- Witness for C6. -/
theorem c6_selector_monotone_witness :
    (1 ≤ 2)
    ∧ ((selectMin 2 [("a".data, ⟨"a".data, VType.color, [⟨"f".data, 1, "color".data⟩]⟩)]).Sublist
        (selectMin 1 [("a".data, ⟨"a".data, VType.color, [⟨"f".data, 1, "color".data⟩]⟩)])
      ∧ (selectMin 1 [("a".data, ⟨"a".data, VType.color, [⟨"f".data, 1, "color".data⟩]⟩)]).Sublist
        [("a".data, ⟨"a".data, VType.color, [⟨"f".data, 1, "color".data⟩]⟩)]) :=
  ⟨by decide, c6_selector_monotone 1 2 _ (by decide)⟩

/-- Helper for C7: a successful spacing match uses one of the six units. -/
theorem spacingHere_unit (l num u : Str) (h : spacingHere l = some (num, u)) :
    u ∈ spacingUnits := by
  simp only [spacingHere] at h
  split at h
  · exact absurd h (by simp)
  · split at h
    · exact absurd h (by simp)
    · next u' hfind =>
      split at h
      · injection h with h'
        injection h' with h1 h2
        subst h2
        exact List.mem_of_find?_eq_some hfind
      · exact absurd h (by simp)

/-- Helper for C7: every pair the spacing scanner emits is a
`spacingHere` match of some suffix. -/
theorem scanSpacingGo_mem (l : Str) (n : Nat) (prev : Option Char) (m : Str × Str)
    (h : m ∈ scanSpacingGo n prev l) : ∃ t : Str, spacingHere t = some m := by
  induction l generalizing n prev with
  | nil => simp [scanSpacingGo] at h
  | cons c rest ih =>
    match n with
    | n + 1 =>
      exact ih n (some c) h
    | 0 =>
      unfold scanSpacingGo at h
      split at h
      · split at h
        · next m0 hm0 =>
          rcases List.mem_cons.1 h with rfl | h'
          · exact ⟨c :: rest, hm0⟩
          · exact ih _ (some c) h'
        · exact ih 0 (some c) h
      · exact ih 0 (some c) h

/-- Helper for C7: every value in the per-line spacing extraction list
decomposes as `number ++ unit` with the source's exclusions false. -/
theorem extractSpacingLine_mem (l v : Str) (h : v ∈ extractSpacingLine l) :
    ∃ num u, v = num ++ u ∧ u ∈ spacingUnits ∧ spacingExcluded num u = false := by
  unfold extractSpacingLine at h
  rw [List.mem_filterMap] at h
  rcases h with ⟨m, hm, hv⟩
  split at hv
  · exact absurd hv (by simp)
  · next hexcl =>
    rcases scanSpacingGo_mem l 0 none m hm with ⟨t, ht⟩
    injection hv with hv'
    exact ⟨m.1, m.2, hv'.symm, spacingHere_unit t m.1 m.2 ht, by simpa using hexcl⟩

/-- C7: a spacing value is extracted only when the line's property
matches the box/layout pattern, and never with magnitude 0, never as
`1px` (any spelling of magnitude 1 with unit `px`), and never as
`100%`/`50%`; in particular `padding: 100%;`, `padding: 1px;` and
`padding: 0px;` each yield zero extractions. -/
theorem c7_spacing_exclusions (scope : Scope) (l : Str) :
    (∀ t ∈ lineTriples scope l, t.ty = VType.spacing →
      propMatches boxProps t.prop = true
      ∧ ∃ num u, t.value = num ++ u ∧ u ∈ spacingUnits
        ∧ numEq num 0 = false
        ∧ (u = "px".data → numEq num 1 = false)
        ∧ (u = ['%'] → numEq num 100 = false ∧ numEq num 50 = false))
    ∧ lineTriples Scope.all "padding: 100%;".data = []
    ∧ lineTriples Scope.all "padding: 1px;".data = []
    ∧ lineTriples Scope.all "padding: 0px;".data = [] := by
  refine ⟨?_, by decide, by decide, by decide⟩
  intro t ht hty
  unfold lineTriples at ht
  split at ht
  · simp at ht
  · rw [List.append_assoc, List.mem_append, List.mem_append] at ht
    rcases ht with hA | hB | hC
    · -- color branch: category mismatch
      exfalso
      split at hA
      · simp only [List.mem_append, List.mem_map] at hA
        rcases hA with ((⟨x, _, hx⟩ | ⟨x, _, hx⟩) | ⟨x, _, hx⟩) | hA
        · rw [← hx] at hty; exact absurd hty (by simp)
        · rw [← hx] at hty; exact absurd hty (by simp)
        · rw [← hx] at hty; exact absurd hty (by simp)
        · split at hA
          · rcases List.mem_map.1 hA with ⟨x, _, hx⟩
            rw [← hx] at hty; exact absurd hty (by simp)
          · simp at hA
      · simp at hA
    · -- spacing branch
      split at hB
      · split at hB
        · next hprop =>
          rcases List.mem_map.1 hB with ⟨x, hx, hxt⟩
          rcases extractSpacingLine_mem l x hx with ⟨num, u, hvu, hu, hexcl⟩
          subst hxt
          have hx3 : (numEq num 0 = false
                ∧ (u = ['%'] → numEq num 100 = false ∧ numEq num 50 = false))
              ∧ (u = "px".data → numEq num 1 = false) := by
            simpa [spacingExcluded, Bool.or_eq_false_iff] using hexcl
          exact ⟨hprop, num, u, hvu, hu, hx3.1.1, hx3.2, hx3.1.2⟩
        · simp at hB
      · simp at hB
    · -- font branch: category mismatch
      exfalso
      split at hC
      · rcases List.mem_map.1 hC with ⟨x, _, hx⟩
        rw [← hx] at hty; exact absurd hty (by simp)
      · simp at hC

/-- Witness for C7: `margin: 16px;` yields a spacing triple satisfying
all the stated conditions. -/
theorem c7_spacing_exclusions_witness :
    ((⟨"16px".data, VType.spacing, "margin".data⟩ : Triple)
        ∈ lineTriples Scope.all "margin: 16px;".data)
    ∧ (propMatches boxProps "margin".data = true
      ∧ ∃ num u, "16px".data = num ++ u ∧ u ∈ spacingUnits
        ∧ numEq num 0 = false
        ∧ (u = "px".data → numEq num 1 = false)
        ∧ (u = ['%'] → numEq num 100 = false ∧ numEq num 50 = false)) :=
  ⟨by decide,
    (c7_spacing_exclusions Scope.all "margin: 16px;".data).1
      ⟨"16px".data, VType.spacing, "margin".data⟩ (by decide) (by decide)⟩

/-- Helper for C8: escaping turns a literal into a pattern that reads
back as exactly that literal's token sequence. -/
theorem escapeRegex_tokens (v : Str) : regexTokens (escapeRegex v) = some v := by
  induction v with
  | nil => rfl
  | cons c rest ih =>
    by_cases hc : c ∈ regexSpecials
    · have he : escapeRegex (c :: rest) = '\\' :: c :: escapeRegex rest := by
        simp [escapeRegex, hc]
      rw [he, regexTokens.eq_def]
      simp [hc, ih]
    · have hcb : c ≠ '\\' := fun h => hc (h ▸ (by decide : '\\' ∈ regexSpecials))
      have he : escapeRegex (c :: rest) = c :: escapeRegex rest := by
        simp [escapeRegex, hc]
      rw [he, regexTokens.eq_def]
      simp [hc, hcb, ih]

/-- Helper: the split never returns an empty segment list, and its head
segment is a prefix of the input. -/
theorem splitGo_head_pre (vh : Char) (vt : Str) :
    ∀ (n : Nat) (s : Str), s.length ≤ n →
      ∃ p ps, splitGo (vh :: vt) 0 s = p :: ps ∧ p <+: s := by
  intro n
  induction n with
  | zero =>
    intro s hs
    have : s = [] := List.eq_nil_of_length_eq_zero (Nat.le_zero.mp hs)
    subst this
    exact ⟨[], [], rfl, List.nil_prefix⟩
  | succ m ih =>
    intro s hs
    match s with
    | [] => exact ⟨[], [], rfl, List.nil_prefix⟩
    | c :: rest =>
      by_cases hp : (vh :: vt).isPrefixOf (c :: rest)
      · refine ⟨[], splitGo (vh :: vt) (vt.length) rest, ?_, List.nil_prefix⟩
        simp [splitGo, hp]
      · have hrest : rest.length ≤ m := by simpa using hs
        rcases ih rest hrest with ⟨p, ps, hsp, hpre⟩
        rcases hpre with ⟨t, ht⟩
        refine ⟨c :: p, ps, ?_, ⟨t, by simp [ht]⟩⟩
        simp [splitGo, hp, hsp]

/-- Helper: `joinWith` over a head segment extended by one character. -/
theorem joinWith_cons_char (sep : Str) (c : Char) (p : Str) (ps : List Str) :
    joinWith sep ((c :: p) :: ps) = c :: joinWith sep (p :: ps) := by
  cases ps with
  | nil => rfl
  | cons q qs => simp [joinWith]

/-- Helper for C8: reassembling the split segments with the literal
itself restores the input (the segments are exactly the text between
the matched occurrences). -/
theorem splitGo_join (vh : Char) (vt : Str) :
    ∀ (n : Nat) (s : Str), s.length ≤ n →
      joinWith (vh :: vt) (splitGo (vh :: vt) 0 s) = s := by
  intro n
  induction n with
  | zero =>
    intro s hs
    have : s = [] := List.eq_nil_of_length_eq_zero (Nat.le_zero.mp hs)
    subst this
    rfl
  | succ m ih =>
    intro s hs
    match s with
    | [] => rfl
    | c :: rest =>
      by_cases hp : (vh :: vt).isPrefixOf (c :: rest)
      · have hdec : (c :: rest) = (vh :: vt) ++ (c :: rest).drop (vh :: vt).length := by
          have hpre := List.isPrefixOf_iff_prefix.mp hp
          exact (List.prefix_iff_eq_append.mp hpre).symm
        have hdrop : (c :: rest).drop (vh :: vt).length = rest.drop vt.length := by simp
        have hlen : (rest.drop vt.length).length ≤ m := by
          have h1 : rest.length ≤ m := by simpa using hs
          calc (rest.drop vt.length).length ≤ rest.length := by simp
            _ ≤ m := h1
        rcases splitGo_head_pre vh vt (rest.drop vt.length).length (rest.drop vt.length)
          (le_refl _) with ⟨p, ps, hsp, -⟩
        have : splitGo (vh :: vt) 0 (c :: rest)
            = [] :: splitGo (vh :: vt) 0 (rest.drop vt.length) := by
          simp [splitGo, hp, splitGo_skip]
        rw [this, hsp]
        have : joinWith (vh :: vt) ([] :: p :: ps)
            = (vh :: vt) ++ joinWith (vh :: vt) (p :: ps) := rfl
        rw [this, ← hsp, ih (rest.drop vt.length) hlen]
        conv_rhs => rw [hdec, hdrop]
      · have hrest : rest.length ≤ m := by simpa using hs
        rcases splitGo_head_pre vh vt rest.length rest (le_refl _) with ⟨p, ps, hsp, -⟩
        have hred : splitGo (vh :: vt) 0 (c :: rest) = (c :: p) :: ps := by
          simp [splitGo, hp, hsp]
        rw [hred, joinWith_cons_char, ← hsp, ih rest hrest]

/-- Helper for C8: the replacement is exactly the split segments joined
with the replacement text. -/
theorem replGo_join (vh : Char) (vt w : Str) :
    ∀ (n : Nat) (s : Str), s.length ≤ n →
      replGo (vh :: vt) w 0 s = joinWith w (splitGo (vh :: vt) 0 s) := by
  intro n
  induction n with
  | zero =>
    intro s hs
    have : s = [] := List.eq_nil_of_length_eq_zero (Nat.le_zero.mp hs)
    subst this
    rfl
  | succ m ih =>
    intro s hs
    match s with
    | [] => rfl
    | c :: rest =>
      by_cases hp : (vh :: vt).isPrefixOf (c :: rest)
      · have hlen : (rest.drop vt.length).length ≤ m := by
          have h1 : rest.length ≤ m := by simpa using hs
          calc (rest.drop vt.length).length ≤ rest.length := by simp
            _ ≤ m := h1
        rcases splitGo_head_pre vh vt (rest.drop vt.length).length (rest.drop vt.length)
          (le_refl _) with ⟨p, ps, hsp, -⟩
        have h1 : replGo (vh :: vt) w 0 (c :: rest)
            = w ++ replGo (vh :: vt) w 0 (rest.drop vt.length) := by
          simp [replGo, hp, replGo_skip]
        have h2 : splitGo (vh :: vt) 0 (c :: rest)
            = [] :: splitGo (vh :: vt) 0 (rest.drop vt.length) := by
          simp [splitGo, hp, splitGo_skip]
        rw [h1, h2, hsp, ih (rest.drop vt.length) hlen, hsp]
        rfl
      · have hrest : rest.length ≤ m := by simpa using hs
        rcases splitGo_head_pre vh vt rest.length rest (le_refl _) with ⟨p, ps, hsp, -⟩
        have h1 : replGo (vh :: vt) w 0 (c :: rest) = c :: replGo (vh :: vt) w 0 rest := by
          simp [replGo, hp]
        have h2 : splitGo (vh :: vt) 0 (c :: rest) = (c :: p) :: ps := by
          simp [splitGo, hp, hsp]
        rw [h1, h2, joinWith_cons_char, ← hsp, ih rest hrest]

/-- Helper for C8: no split segment contains the literal (every
occurrence is consumed by the match scan). -/
theorem splitGo_seg_free (vh : Char) (vt : Str) :
    ∀ (n : Nat) (s : Str), s.length ≤ n →
      ∀ p ∈ splitGo (vh :: vt) 0 s, ¬ (vh :: vt) <:+: p := by
  intro n
  induction n with
  | zero =>
    intro s hs
    have : s = [] := List.eq_nil_of_length_eq_zero (Nat.le_zero.mp hs)
    subst this
    intro p hp
    have : p = [] := by simpa [splitGo] using hp
    subst this
    simp
  | succ m ih =>
    intro s hs
    match s with
    | [] =>
      intro p hp
      have : p = [] := by simpa [splitGo] using hp
      subst this
      simp
    | c :: rest =>
      by_cases hp : (vh :: vt).isPrefixOf (c :: rest)
      · have hlen : (rest.drop vt.length).length ≤ m := by
          have h1 : rest.length ≤ m := by simpa using hs
          calc (rest.drop vt.length).length ≤ rest.length := by simp
            _ ≤ m := h1
        have h2 : splitGo (vh :: vt) 0 (c :: rest)
            = [] :: splitGo (vh :: vt) 0 (rest.drop vt.length) := by
          simp [splitGo, hp, splitGo_skip]
        rw [h2]
        intro p hpmem
        rcases List.mem_cons.1 hpmem with rfl | hpmem'
        · simp
        · exact ih (rest.drop vt.length) hlen p hpmem'
      · have hrest : rest.length ≤ m := by simpa using hs
        rcases splitGo_head_pre vh vt rest.length rest (le_refl _) with ⟨p0, ps, hsp, hpre⟩
        have h2 : splitGo (vh :: vt) 0 (c :: rest) = (c :: p0) :: ps := by
          simp [splitGo, hp, hsp]
        rw [h2]
        intro p hpmem
        rcases List.mem_cons.1 hpmem with rfl | hpmem'
        · intro hinf
          rcases List.infix_cons_iff.1 hinf with hpref | hinf'
          · have : (vh :: vt) <+: (c :: rest) := hpref.trans (by
              rcases hpre with ⟨t, ht⟩
              exact ⟨t, by simp [ht]⟩)
            exact hp (List.isPrefixOf_iff_prefix.mpr this)
          · exact ih rest hrest p0 (hsp ▸ List.mem_cons_self _ _) hinf'
        · exact ih rest hrest p (hsp ▸ List.mem_cons_of_mem _ hpmem')

/-- C8: the escape set `. * + ? ^ $ { } ( ) | [ ] \` is complete — the
escaped pattern reads back as exactly the literal's character sequence
(`regexTokens`), so the substitution is literal-exact: the input splits
into segments none of which contains the literal, reassembling the
segments with the literal restores the input, and the replacement is
precisely those segments joined with the replacement text — i.e.
exactly the occurrences of the exact literal substring are replaced and
no other text is altered. -/
theorem c8_escape_exact (v w s : Str) (hv : v ≠ []) :
    regexTokens (escapeRegex v) = some v
    ∧ replaceAll v w s = joinWith w (splitAll v s)
    ∧ joinWith v (splitAll v s) = s
    ∧ ∀ p ∈ splitAll v s, ¬ v <:+: p := by
  match v, hv with
  | vh :: vt, _ =>
    refine ⟨escapeRegex_tokens _, ?_, ?_, ?_⟩
    · simpa [replaceAll, splitAll] using replGo_join vh vt w s.length s (le_refl _)
    · simpa [splitAll] using splitGo_join vh vt s.length s (le_refl _)
    · simpa [splitAll] using splitGo_seg_free vh vt s.length s (le_refl _)

/-- Witness for C8: a literal containing every special character of the
escape set, replaced inside a text with one occurrence. -/
theorem c8_escape_exact_witness :
    (".*+?^$\x7b\x7d()|[]\\".data ≠ [])
    ∧ (regexTokens (escapeRegex ".*+?^$\x7b\x7d()|[]\\".data)
        = some ".*+?^$\x7b\x7d()|[]\\".data
      ∧ replaceAll ".*+?^$\x7b\x7d()|[]\\".data "W".data
          ("x.*+?^$\x7b\x7d()|[]\\y".data)
          = joinWith "W".data (splitAll ".*+?^$\x7b\x7d()|[]\\".data
              "x.*+?^$\x7b\x7d()|[]\\y".data)
      ∧ joinWith ".*+?^$\x7b\x7d()|[]\\".data
          (splitAll ".*+?^$\x7b\x7d()|[]\\".data "x.*+?^$\x7b\x7d()|[]\\y".data)
          = "x.*+?^$\x7b\x7d()|[]\\y".data
      ∧ ∀ p ∈ splitAll ".*+?^$\x7b\x7d()|[]\\".data "x.*+?^$\x7b\x7d()|[]\\y".data,
          ¬ ".*+?^$\x7b\x7d()|[]\\".data <:+: p) :=
  ⟨by decide, c8_escape_exact ".*+?^$\x7b\x7d()|[]\\".data "W".data
    "x.*+?^$\x7b\x7d()|[]\\y".data (by decide)⟩

/-- Helper for C9: `combineAdds` with no additions changes nothing. -/
theorem combineAdds_nil (v : Str) (mv : Option ExtractedValue) :
    combineAdds v mv [] = mv := by
  cases mv <;> rfl

/-- Helper for C9: `lookup` after one `addValue`. -/
theorem lookup_addValue (m : VMap) (w : Str) (ty : VType) (loc : Loc) (v : Str) :
    lookupV (addValue m w ty loc) v =
      if w = v then
        match lookupV m v with
        | none => some ⟨w, ty, [loc]⟩
        | some e => some { e with locations := e.locations ++ [loc] }
      else lookupV m v := by
  induction m with
  | nil =>
    by_cases h : w = v
    · subst h
      simp [addValue, lookupV]
    · simp [addValue, lookupV, h, Ne.symm h]
  | cons kv rest ih =>
    rcases kv with ⟨k, e⟩
    by_cases hk : k = w
    · subst hk
      by_cases h : k = v
      · subst h
        simp [addValue, lookupV]
      · simp [addValue, lookupV, h, Ne.symm h]
    · by_cases h : k = v
      · subst h
        have hwv : w ≠ k := Ne.symm hk
        simp [addValue, lookupV, hk, hwv]
      · simp [addValue, lookupV, hk, h, Ne.symm h, ih]

/-- Helper for C9: `lookup` after folding a flat addition list. -/
theorem lookup_foldAdd (adds : List Addition) (m : VMap) (v : Str) :
    lookupV (adds.foldl (fun acc a => addValue acc a.value a.ty a.loc) m) v
      = combineAdds v (lookupV m v) (addsFor v adds) := by
  induction adds generalizing m with
  | nil => simp [addsFor, combineAdds_nil]
  | cons a as_ ih =>
    simp only [List.foldl_cons]
    rw [ih, lookup_addValue]
    by_cases hv : a.value = v
    · have hflt : addsFor v (a :: as_) = a :: addsFor v as_ := by
        simp [addsFor, List.filter_cons, hv]
      rw [hflt, if_pos hv]
      cases hm : lookupV m v with
      | none =>
        cases has_ : addsFor v as_ with
        | nil => simp [combineAdds, combineAdds_nil, hv]
        | cons b bs => simp [combineAdds, hv]
      | some e =>
        cases has_ : addsFor v as_ with
        | nil => simp [combineAdds, combineAdds_nil, hv]
        | cons b bs => simp [combineAdds, hv]
    · have hflt : addsFor v (a :: as_) = addsFor v as_ := by
        simp [addsFor, List.filter_cons, hv]
      rw [hflt, if_neg hv]

/-- Helper for C9: `lookup` in `buildMap`. -/
theorem lookup_buildMap (adds : List Addition) (v : Str) :
    lookupV (buildMap adds) v = combineAdds v none (addsFor v adds) := by
  have h := lookup_foldAdd adds [] v
  simpa [buildMap, lookupV] using h

/-- Helper for C9: keys after one `addValue`. -/
theorem keysOf_addValue (m : VMap) (w : Str) (ty : VType) (loc : Loc) :
    keysOf (addValue m w ty loc)
      = if w ∈ keysOf m then keysOf m else keysOf m ++ [w] := by
  induction m with
  | nil => simp [addValue, keysOf]
  | cons kv rest ih =>
    rcases kv with ⟨k, e⟩
    by_cases hk : k = w
    · subst hk
      have hmem : k ∈ keysOf ((k, e) :: rest) := List.mem_cons_self k (keysOf rest)
      rw [if_pos hmem]
      have hadd : addValue ((k, e) :: rest) k ty loc
          = (k, { e with locations := e.locations ++ [loc] }) :: rest := by
        simp [addValue]
      rw [hadd]
      rfl
    · have hwk : w ≠ k := Ne.symm hk
      have hadd : addValue ((k, e) :: rest) w ty loc = (k, e) :: addValue rest w ty loc := by
        simp [addValue, hk]
      have hcons : keysOf ((k, e) :: addValue rest w ty loc)
          = k :: keysOf (addValue rest w ty loc) := rfl
      have h2 : w ∈ keysOf ((k, e) :: rest) ↔ w ∈ keysOf rest := by
        simp [keysOf, hwk]
      by_cases hmem : w ∈ keysOf rest
      · rw [hadd, hcons, ih, if_pos hmem, if_pos (h2.mpr hmem)]
        rfl
      · rw [hadd, hcons, ih, if_neg hmem, if_neg (fun hh => hmem (h2.mp hh))]
        rfl

/-- Helper for C9: `addValue` keeps the key list duplicate-free. -/
theorem nodup_addValue (m : VMap) (w : Str) (ty : VType) (loc : Loc)
    (h : (keysOf m).Nodup) : (keysOf (addValue m w ty loc)).Nodup := by
  rw [keysOf_addValue]
  by_cases hmem : w ∈ keysOf m
  · simpa [hmem] using h
  · rw [if_neg hmem]
    simp [List.nodup_append, h, hmem]

/-- Helper for C9: maps built by folding additions have duplicate-free
keys. -/
theorem nodup_foldAdd (adds : List Addition) (m : VMap) (h : (keysOf m).Nodup) :
    (keysOf (adds.foldl (fun acc a => addValue acc a.value a.ty a.loc) m)).Nodup := by
  induction adds generalizing m with
  | nil => exact h
  | cons a as_ ih => exact ih _ (nodup_addValue m a.value a.ty a.loc h)

/-- Helper for C9: `lookup` after one `mergeOne` (the cross-file merge
keeps the existing entry's category and appends the locations). -/
theorem lookup_mergeOne (acc : VMap) (kv : Str × ExtractedValue) (v : Str) :
    lookupV (mergeOne acc kv) v =
      if kv.1 = v then
        match lookupV acc v with
        | none => some kv.2
        | some e => some { e with locations := e.locations ++ kv.2.locations }
      else lookupV acc v := by
  rcases kv with ⟨w, ev⟩
  induction acc with
  | nil =>
    by_cases h : w = v
    · subst h
      simp [mergeOne, lookupV]
    · simp [mergeOne, lookupV, h]
  | cons ke rest ih =>
    rcases ke with ⟨k, e⟩
    by_cases hk : k = w
    · subst hk
      by_cases h : k = v
      · subst h
        simp [mergeOne, lookupV]
      · simp [mergeOne, lookupV, h]
    · by_cases h : k = v
      · have hwv : ¬ w = v := fun hh => hk (h.trans hh.symm)
        have hvw : ¬ v = w := fun hh => hwv hh.symm
        simp [mergeOne, lookupV, hk, h, hwv, hvw]
      · simp [mergeOne, lookupV, hk, h, ih]

/-- Helper for C9: a key absent from the key list has no entry. -/
theorem lookup_none_of_not_mem (m : VMap) (v : Str) (h : v ∉ keysOf m) :
    lookupV m v = none := by
  induction m with
  | nil => rfl
  | cons p ps ih =>
    have h1 : ¬ p.1 = v := fun hh => h (by simp [keysOf, hh])
    have h2 : v ∉ keysOf ps := fun hh => h (by simp [keysOf]; exact Or.inr (by simpa [keysOf] using hh))
    simp [lookupV, h1, ih h2]

/-- Helper for C9: `lookup` after merging a whole per-file map with
duplicate-free keys: the merged-in entry (if any) is appended to the
global entry, whose category survives. -/
theorem lookup_mergeInto (m : VMap) (acc : VMap) (v : Str) (hnd : (keysOf m).Nodup) :
    lookupV (mergeInto acc m) v =
      match lookupV m v with
      | none => lookupV acc v
      | some e =>
        match lookupV acc v with
        | none => some e
        | some e0 => some { e0 with locations := e0.locations ++ e.locations }
    := by
  induction m generalizing acc with
  | nil => rfl
  | cons ke rest ih =>
    rcases ke with ⟨k, e⟩
    have hcons : k ∉ keysOf rest ∧ (keysOf rest).Nodup := by
      have := hnd
      simp only [keysOf, List.map_cons, List.nodup_cons] at this
      exact ⟨fun hh => this.1 (by simpa [keysOf] using hh), by simpa [keysOf] using this.2⟩
    have hfold : mergeInto acc ((k, e) :: rest) = mergeInto (mergeOne acc (k, e)) rest := rfl
    rw [hfold, ih (mergeOne acc (k, e)) hcons.2]
    by_cases hv : k = v
    · subst hv
      have hrest : lookupV rest k = none := lookup_none_of_not_mem rest k hcons.1
      rw [hrest, lookup_mergeOne]
      simp [lookupV]
    · have hmo : lookupV (mergeOne acc (k, e)) v = lookupV acc v := by
        rw [lookup_mergeOne, if_neg hv]
      have hlk : lookupV ((k, e) :: rest) v = lookupV rest v := by
        simp [lookupV, hv]
      rw [hmo, hlk]

/-- Helper for C9: the per-line addition loop is a fold of the flat
per-line addition list. -/
theorem addLineTriples_eq (m : VMap) (file : Str) (n : Nat) (ts : List Triple) :
    addLineTriples m file n ts
      = (lineAdds file n ts).foldl (fun acc a => addValue acc a.value a.ty a.loc) m := by
  simp [addLineTriples, lineAdds, List.foldl_map]

/-- Helper for C9: the extraction loop over the lines of a file is a
fold of the flat addition list of those lines. -/
theorem extractGo_eq (file : Str) (scope : Scope) (m : VMap) (i : Nat) (ls : List Str) :
    extractGo file scope m i ls
      = (linesAdds file scope i ls).foldl (fun acc a => addValue acc a.value a.ty a.loc) m := by
  induction ls generalizing m i with
  | nil => rfl
  | cons l ls ih =>
    simp only [extractGo, linesAdds, List.foldl_append]
    rw [ih, addLineTriples_eq]

/-- Helper for C9: `lookup` in a per-file extraction map. -/
theorem lookup_extractValuesFile (content file : Str) (scope : Scope) (v : Str) :
    lookupV (extractValuesFile content file scope) v
      = combineAdds v none (addsFor v (fileAdds file content scope)) := by
  unfold extractValuesFile fileAdds
  rw [extractGo_eq]
  simpa [lookupV] using
    lookup_foldAdd (linesAdds file scope 0 (splitNl content)) [] v

/-- Helper for C9: `combineAdds` composes over concatenation of
addition lists. -/
theorem combineAdds_append (v : Str) (mv : Option ExtractedValue) (l1 l2 : List Addition) :
    combineAdds v (combineAdds v mv l1) l2 = combineAdds v mv (l1 ++ l2) := by
  cases l1 with
  | nil => simp [combineAdds_nil]
  | cons a as_ =>
    cases mv with
    | none =>
      cases l2 with
      | nil => simp [combineAdds_nil, combineAdds]
      | cons b bs => simp [combineAdds]
    | some e =>
      cases l2 with
      | nil => simp [combineAdds_nil, combineAdds]
      | cons b bs => simp [combineAdds]

/-- Helper for C9: `lookup` across the whole cross-file aggregation
fold, for an arbitrary starting accumulator. -/
theorem lookup_aggAux (files : List (Str × Str)) (scope : Scope) (acc : VMap) (v : Str) :
    lookupV (files.foldl (fun acc f => mergeInto acc (extractValuesFile f.2 f.1 scope)) acc) v
      = combineAdds v (lookupV acc v) (addsFor v (allAdds files scope)) := by
  induction files generalizing acc with
  | nil => simp [allAdds, addsFor, combineAdds_nil]
  | cons f fs ih =>
    simp only [List.foldl_cons]
    rw [ih]
    have hnd : (keysOf (extractValuesFile f.2 f.1 scope)).Nodup := by
      unfold extractValuesFile
      rw [extractGo_eq]
      exact nodup_foldAdd _ [] (by simp [keysOf])
    rw [lookup_mergeInto _ _ _ hnd, lookup_extractValuesFile]
    have hall : allAdds (f :: fs) scope = fileAdds f.1 f.2 scope ++ allAdds fs scope := rfl
    have haf : addsFor v (fileAdds f.1 f.2 scope ++ allAdds fs scope)
        = addsFor v (fileAdds f.1 f.2 scope) ++ addsFor v (allAdds fs scope) := by
      simp [addsFor, List.filter_append]
    rw [hall, haf, ← combineAdds_append]
    congr 1
    cases hfa : addsFor v (fileAdds f.1 f.2 scope) with
    | nil => simp [combineAdds_nil]
    | cons a as_ =>
      cases hacc : lookupV acc v with
      | none => simp [combineAdds]
      | some e0 => simp [combineAdds]

/-- C9: the aggregated entry of a value `v` has the category of the
FIRST addition for `v` in discovery order (first-write-wins: no later
occurrence, in the same file or merged from a later file, ever changes
it — an `ExtractedValue` carries a single `ty`, so all occurrences
recorded under it share one category), and its location list is exactly
the locations of ALL additions for `v`, append-only in discovery order
(file order, then line order within a file). -/
theorem c9_first_write_wins (files : List (Str × Str)) (scope : Scope) (v : Str) :
    lookupV (aggregateAll files scope) v
      = match addsFor v (allAdds files scope) with
        | [] => none
        | a :: as_ => some ⟨v, a.ty, (a :: as_).map (fun x => x.loc)⟩ := by
  unfold aggregateAll
  rw [lookup_aggAux files scope [] v]
  cases addsFor v (allAdds files scope) with
  | nil => rfl
  | cons a as_ => rfl

/-- C10: font-family values are extracted only under scope `all`: under
scope `colors` or scope `spacing` the per-line classifier yields no
font-category triples on any line. -/
theorem c10_font_scope_all_only (l : Str) :
    (lineTriples Scope.colors l).filter (fun t => t.ty == VType.font) = []
    ∧ (lineTriples Scope.spacing l).filter (fun t => t.ty == VType.font) = [] := by
  constructor <;>
  · unfold lineTriples
    split
    · rfl
    · simp only [List.filter_append, List.filter_map, Function.comp_def]
      simp
      intro a _ x _ h
      subst h
      simp

end CssToVars
